import Mathlib

/-!
# Verification of the task container of `todo_app.py`

This file gives a shallow embedding of the task container of the todo
application (`src/todo_app.py`) and proves or refutes the frozen claims
about it.

Two levels are modelled:

* a *pointer level*: an explicit heap of `next`/`prev` pointers over node
  identifiers, with the container operations (`add_task_node`,
  `delete_task_node`, the sweep of `App.refresh_ui`, `_split`, `_merge`,
  `merge_sort`, `sort_by`) translated statement by statement from the
  Python source;
* a *list level*: the sequence semantics of the same algorithms, used as
  the specification the pointer level is proved to refine.

Serialization (`TaskNode.to_dict` / `TaskNode.from_dict`) and the loading
loop of `App.load_data` are modelled directly as pure functions.
-/

namespace TodoApp

/-- The data fields of `TaskNode` (`todo_app.py` lines 31-46): `description`,
`status`, `priority`, `due_date`, `tags`, `xp_value`.  The `next`/`prev`
pointers of a node live in the heap model below, not in the task record. -/
structure Task where
  description : String
  status : String
  priority : String
  due_date : Option String
  tags : List String
  xp_value : Int
deriving DecidableEq

/-- `TaskNode.__init__` (lines 34-46): `tags` starts empty and `xp_value`
is derived from `priority` via `{"high": 100, "medium": 50, "low": 20}.get(priority, 20)`
when not supplied. -/
def mkTaskNode (description : String) (priority : String)
    (due_date : Option String) (status : String)
    (xp_value : Option Int) : Task :=
  { description := description
    status := status
    priority := priority
    due_date := due_date
    tags := []
    xp_value :=
      match xp_value with
      | some v => v
      | none =>
        if priority = "high" then 100
        else if priority = "medium" then 50
        else if priority = "low" then 20
        else 20 }

/-- A persisted record: one JSON object of the `tasks` array.  A field is
`none` when its key is absent from the object (reading it raises `KeyError`
in Python).  `due_date` and `xp_value` may be present with a JSON `null`
value, hence the nested `Option`. -/
structure Record where
  description : Option String
  status : Option String
  priority : Option String
  due_date : Option (Option String)
  xp_value : Option (Option Int)
deriving DecidableEq

/-- `TaskNode.to_dict` (lines 49-57): writes the five persisted fields.
Note that `tags` is not persisted. -/
def to_dict (t : Task) : Record :=
  { description := some t.description
    status := some t.status
    priority := some t.priority
    due_date := some t.due_date
    xp_value := some (some t.xp_value) }

/-- `TaskNode.from_dict` (lines 59-68): reads the five required keys (a
missing key raises `KeyError`, modelled as `none`) and passes them to the
`TaskNode` constructor. -/
def from_dict (data : Record) : Option Task := do
  let description ← data.description
  let priority ← data.priority
  let due_date ← data.due_date
  let status ← data.status
  let xp_value ← data.xp_value
  pure (mkTaskNode description priority due_date status xp_value)

/-- The task-loading loop of `App.load_data` (lines 468-471).  Records are
deserialized and appended in file order.  The whole `for` loop runs inside a
single `try` (lines 462-476): the first record that raises `KeyError`
aborts the loop, keeping the tasks already appended and dropping every
later record. -/
def load_tasks (records : List Record) : List Task :=
  match records with
  | [] => []
  | r :: rest =>
    match from_dict r with
    | some t => t :: load_tasks rest
    | none => []

/-- C7: the serialize/deserialize round trip restores the five persisted
fields exactly but always resets `tags` to the empty list, because
`to_dict` does not persist `tags` and the `TaskNode` constructor
initialises `tags := []`. -/
theorem C7_roundtrip_amended (t : Task) :
    from_dict (to_dict t) = some { t with tags := [] } := by
  cases t
  rfl

/-- C7 fails as stated: a task with a non-empty `tags` list is not
recovered by `deserialize(serialize(t))` — its tags are lost. -/
theorem C7_roundtrip_counterexample :
    from_dict (to_dict { description := "a", status := "todo",
                         priority := "medium", due_date := none,
                         tags := ["urgent"], xp_value := 50 })
      ≠ some { description := "a", status := "todo", priority := "medium",
               due_date := none, tags := ["urgent"], xp_value := 50 } := by
  decide

/-- C8, amended: deserializing a record that lacks any of the five required
fields fails (the `KeyError`, i.e. `SchemaError`), and the loading loop
keeps exactly the records before the first malformed one: the malformed
record and every record after it are dropped, because the single `try`
around the loop aborts it. -/
theorem C8_schema_error_and_load_abort :
    (∀ r : Record,
        r.description = none ∨ r.status = none ∨ r.priority = none ∨
          r.due_date = none ∨ r.xp_value = none →
        from_dict r = none) ∧
    (∀ records : List Record,
        load_tasks records =
          ((records.map from_dict).takeWhile Option.isSome).filterMap id) := by
  constructor
  · intro r h
    obtain ⟨d, s, p, dd, xp⟩ := r
    simp only [from_dict, Option.bind_eq_bind]
    rcases h with h | h | h | h | h <;> simp_all
  · intro records
    induction records with
    | nil => rfl
    | cons r rest ih =>
      simp only [load_tasks, List.map, List.takeWhile]
      cases hr : from_dict r with
      | none => simp [hr]
      | some t => simp [hr, ih]

/-- Witness for C8: a record missing `status` deserializes to `none`. -/
theorem C8_witness :
    (({ description := some "b", status := none, priority := some "low",
        due_date := some none, xp_value := some (some 20) } : Record).status
        = none ∨ False) ∧
    from_dict { description := some "b", status := none,
                priority := some "low", due_date := some none,
                xp_value := some (some 20) } = none :=
  ⟨Or.inl rfl,
    C8_schema_error_and_load_abort.1 _ (Or.inr (Or.inl rfl))⟩

/-- C8 fails as stated: loading a malformed record followed by a good one
does not continue with the good record — the loop aborts, so the good
record is lost even though it deserializes fine. -/
theorem C8_load_counterexample :
    load_tasks
        [{ description := some "b", status := none, priority := some "low",
           due_date := some none, xp_value := some (some 20) },
         { description := some "c", status := some "todo",
           priority := some "low", due_date := some none,
           xp_value := some (some 20) }] = [] ∧
    load_tasks
        [{ description := some "b", status := none, priority := some "low",
           due_date := some none, xp_value := some (some 20) },
         { description := some "c", status := some "todo",
           priority := some "low", due_date := some none,
           xp_value := some (some 20) }] ≠
      ([{ description := some "b", status := none, priority := some "low",
          due_date := some none, xp_value := some (some 20) },
        { description := some "c", status := some "todo",
          priority := some "low", due_date := some none,
          xp_value := some (some 20) }] : List Record).filterMap from_dict := by
  constructor <;> decide

section ListLevelSort

variable {α : Type} {β : Type}

/-- List-level shadow of the tortoise/hare loop of `TaskList._split`
(lines 135-150): given the chain starting at `head.next`, counts how many
times `slow = slow.next` runs (`fast` consumes two nodes per step). -/
def splitSteps : List α → Nat
  | [] => 0
  | [_] => 0
  | _ :: _ :: fs => splitSteps fs + 1

/-- List-level semantics of `TaskList._split`: `slow` lands on index
`splitSteps l.tail`, and the left half keeps everything up to and
including `slow`. -/
def splitL : List α → List α × List α
  | [] => ([], [])
  | a :: t => ((a :: t).take (splitSteps t + 1), (a :: t).drop (splitSteps t + 1))

/-- Helper making the merge loop structurally recursive: `mergeLAux gf a f r`
merges the list headed by `a` (whose tail is merged by `f`) with `r`. -/
def mergeLAux (gf : α → α → Bool) (a : α) (f : List α → List α) :
    List α → List α
  | [] => a :: f []
  | b :: r => if gf a b then a :: f (b :: r) else b :: mergeLAux gf a f r

/-- List-level semantics of the `while left and right` loop plus the
wholesale attach of the remainder in `TaskList._merge` (lines 165-206).
`gf a b` ("a goes first") is the branch condition that keeps the left node:
`val_left >= val_right` for the priority key, `val_left <= val_right` for
the due-date key. -/
def mergeL (gf : α → α → Bool) : List α → List α → List α
  | [], r => r
  | a :: l, r => mergeLAux gf a (mergeL gf l) r

/-- List-level semantics of `TaskList.merge_sort` (lines 208-218), with an
explicit fuel parameter bounding the recursion depth (any `fuel ≥ length`
is enough; the Python recursion always terminates on a well-formed chain). -/
def mergeSortL (gf : α → α → Bool) : Nat → List α → List α
  | 0, l => l
  | _ + 1, [] => []
  | _ + 1, [a] => [a]
  | fuel + 1, a :: b :: t =>
    mergeL gf (mergeSortL gf fuel (splitL (a :: b :: t)).1)
      (mergeSortL gf fuel (splitL (a :: b :: t)).2)

theorem mergeL_nil_right (gf : α → α → Bool) :
    ∀ l : List α, mergeL gf l [] = l := by
  intro l
  induction l with
  | nil => rfl
  | cons a l ih => simp [mergeL, mergeLAux, ih]

theorem mergeL_cons_cons (gf : α → α → Bool) (a b : α) (l r : List α) :
    mergeL gf (a :: l) (b :: r) =
      if gf a b then a :: mergeL gf l (b :: r) else b :: mergeL gf (a :: l) r :=
  rfl

theorem splitSteps_eq (l : List α) : splitSteps l = l.length / 2 := by
  induction l using splitSteps.induct with
  | case1 => simp [splitSteps]
  | case2 => simp [splitSteps]
  | case3 x y fs ih => simp [splitSteps, ih]; omega

theorem splitL_eq (a : α) (t : List α) :
    splitL (a :: t) =
      ((a :: t).take ((t.length + 2) / 2), (a :: t).drop ((t.length + 2) / 2)) := by
  have h : splitSteps t + 1 = (t.length + 2) / 2 := by
    rw [splitSteps_eq]; omega
  simp [splitL, h]

theorem mergeL_perm (gf : α → α → Bool) :
    ∀ l r : List α, List.Perm (mergeL gf l r) (l ++ r) := by
  intro l
  induction l with
  | nil => intro r; simp [mergeL]
  | cons a l ihl =>
    intro r
    induction r with
    | nil => simp [mergeL_nil_right]
    | cons b r ihr =>
      rw [mergeL_cons_cons]
      cases hab : gf a b with
      | true =>
        simp only [if_true]
        exact (ihl (b :: r)).cons a
      | false =>
        simp only [Bool.false_eq_true, if_false]
        exact (ihr.cons b).trans List.perm_middle.symm

theorem mem_mergeL (gf : α → α → Bool) (l r : List α) (x : α) :
    x ∈ mergeL gf l r ↔ x ∈ l ∨ x ∈ r := by
  rw [(mergeL_perm gf l r).mem_iff, List.mem_append]

/-- The merge of two sorted lists is sorted, provided the "goes first"
relation is total and transitive. -/
theorem mergeL_pairwise (gf : α → α → Bool)
    (htot : ∀ a b, gf a b = true ∨ gf b a = true)
    (htr : ∀ a b c, gf a b = true → gf b c = true → gf a c = true) :
    ∀ l r : List α, l.Pairwise (fun a b => gf a b = true) →
      r.Pairwise (fun a b => gf a b = true) →
      (mergeL gf l r).Pairwise (fun a b => gf a b = true) := by
  intro l
  induction l with
  | nil => intro r _ hr; simpa [mergeL] using hr
  | cons a l ihl =>
    intro r
    induction r with
    | nil => intro hl _; simpa [mergeL_nil_right] using hl
    | cons b r ihr =>
      intro hl hr
      rw [mergeL_cons_cons]
      obtain ⟨ha, hl'⟩ := List.pairwise_cons.1 hl
      obtain ⟨hb, hr'⟩ := List.pairwise_cons.1 hr
      cases hab : gf a b with
      | true =>
        simp only [if_true]
        refine List.pairwise_cons.2 ⟨?_, ihl (b :: r) hl' hr⟩
        intro x hx
        rcases (mem_mergeL gf l (b :: r) x).1 hx with h | h
        · exact ha x h
        · rcases List.mem_cons.1 h with h | h
          · exact h ▸ hab
          · exact htr a b x hab (hb x h)
      | false =>
        simp only [Bool.false_eq_true, if_false]
        have hba : gf b a = true := by
          rcases htot a b with h | h
          · exact absurd h (by simp [hab])
          · exact h
        refine List.pairwise_cons.2 ⟨?_, ihr hl hr'⟩
        intro x hx
        rcases (mem_mergeL gf (a :: l) r x).1 hx with h | h
        · rcases List.mem_cons.1 h with h | h
          · exact h ▸ hba
          · exact htr b a x hba (ha x h)
        · exact hb x h

theorem mergeSortL_cons₂ (gf : α → α → Bool) (fuel : Nat) (a b : α) (t : List α) :
    mergeSortL gf (fuel + 1) (a :: b :: t) =
      mergeL gf (mergeSortL gf fuel ((a :: b :: t).take ((t.length + 3) / 2)))
        (mergeSortL gf fuel ((a :: b :: t).drop ((t.length + 3) / 2))) := by
  have h : splitSteps (b :: t) + 1 = (t.length + 3) / 2 := by
    rw [splitSteps_eq]
    simp only [List.length_cons]
    omega
  simp [mergeSortL, splitL, h]

theorem mergeSortL_perm (gf : α → α → Bool) :
    ∀ fuel : Nat, ∀ l : List α, l.length ≤ fuel →
      List.Perm (mergeSortL gf fuel l) l := by
  intro fuel
  induction fuel with
  | zero => intro l _; exact List.Perm.refl l
  | succ fuel ih =>
    intro l hlen
    match l with
    | [] => exact List.Perm.refl []
    | [a] => exact List.Perm.refl [a]
    | a :: b :: t =>
      rw [mergeSortL_cons₂]
      have hlt : ((a :: b :: t).take ((t.length + 3) / 2)).length ≤ fuel := by
        simp only [List.length_take, List.length_cons] at *
        omega
      have hld : ((a :: b :: t).drop ((t.length + 3) / 2)).length ≤ fuel := by
        simp only [List.length_drop, List.length_cons] at *
        omega
      have hp := (mergeL_perm gf _ _).trans (List.Perm.append (ih _ hlt) (ih _ hld))
      rwa [List.take_append_drop] at hp

/-- The sort output is sorted (adjacent-pairs follow from this via
`List.Pairwise.chain'`). -/
theorem mergeSortL_pairwise (gf : α → α → Bool)
    (htot : ∀ a b, gf a b = true ∨ gf b a = true)
    (htr : ∀ a b c, gf a b = true → gf b c = true → gf a c = true) :
    ∀ fuel : Nat, ∀ l : List α, l.length ≤ fuel →
      (mergeSortL gf fuel l).Pairwise (fun a b => gf a b = true) := by
  intro fuel
  induction fuel with
  | zero =>
    intro l hlen
    have hl : l = [] := List.length_eq_zero.1 (Nat.le_zero.1 hlen)
    subst hl
    exact List.Pairwise.nil
  | succ fuel ih =>
    intro l hlen
    match l with
    | [] => exact List.Pairwise.nil
    | [a] => exact List.pairwise_singleton _ a
    | a :: b :: t =>
      rw [mergeSortL_cons₂]
      have hlt : ((a :: b :: t).take ((t.length + 3) / 2)).length ≤ fuel := by
        simp only [List.length_take, List.length_cons] at *
        omega
      have hld : ((a :: b :: t).drop ((t.length + 3) / 2)).length ≤ fuel := by
        simp only [List.length_drop, List.length_cons] at *
        omega
      exact mergeL_pairwise gf htot htr _ _ (ih _ hlt) (ih _ hld)

/-- Merging two halves of an already sorted list returns it unchanged:
the tie-break keeps the left operand first, so the left half is consumed
first. -/
theorem mergeL_sorted_id (gf : α → α → Bool) :
    ∀ l r : List α, (l ++ r).Pairwise (fun a b => gf a b = true) →
      mergeL gf l r = l ++ r := by
  intro l
  induction l with
  | nil => intro r _; simp [mergeL]
  | cons a l ihl =>
    intro r h
    match r with
    | [] => simp [mergeL_nil_right]
    | b :: r =>
      rw [mergeL_cons_cons]
      obtain ⟨ha, h'⟩ := List.pairwise_cons.1 h
      have hab : gf a b = true := ha b (by simp)
      rw [if_pos hab, ihl (b :: r) h']
      rfl

theorem mergeSortL_sorted_id (gf : α → α → Bool) :
    ∀ fuel : Nat, ∀ l : List α,
      l.Pairwise (fun a b => gf a b = true) → mergeSortL gf fuel l = l := by
  intro fuel
  induction fuel with
  | zero => intro l _; rfl
  | succ fuel ih =>
    intro l hl
    match l with
    | [] => rfl
    | [a] => rfl
    | a :: b :: t =>
      rw [mergeSortL_cons₂]
      have hsplit := List.take_append_drop ((t.length + 3) / 2) (a :: b :: t)
      have htake : ((a :: b :: t).take ((t.length + 3) / 2)).Pairwise
          (fun a b => gf a b = true) :=
        hl.sublist (List.take_sublist _ _)
      have hdrop : ((a :: b :: t).drop ((t.length + 3) / 2)).Pairwise
          (fun a b => gf a b = true) :=
        hl.sublist (List.drop_sublist _ _)
      have hmerge := mergeL_sorted_id gf
        ((a :: b :: t).take ((t.length + 3) / 2))
        ((a :: b :: t).drop ((t.length + 3) / 2)) (by rw [hsplit]; exact hl)
      rw [ih _ htake, ih _ hdrop, hmerge, hsplit]

/-- Stability core.  Suppose `gf` compares only the keys `k`: ties keep the
left operand (`P1`) and whether a node goes first depends only on its key
(`P2`).  Merging a sorted left list with any right list keeps the elements
of any fixed key value `v` in order: those of `l` first, then those of `r`. -/
theorem mergeL_filter [DecidableEq β] (gf : α → α → Bool) (k : α → β)
    (P1 : ∀ a b, k a = k b → gf a b = true)
    (P2 : ∀ a b x, gf a b = false → k x = k b → gf a x = false) (v : β) :
    ∀ l r : List α, l.Pairwise (fun a b => gf a b = true) →
      (mergeL gf l r).filter (fun x => decide (k x = v)) =
        l.filter (fun x => decide (k x = v)) ++
          r.filter (fun x => decide (k x = v)) := by
  intro l
  induction l with
  | nil => intro r _; simp [mergeL]
  | cons a l ihl =>
    intro r hl
    obtain ⟨ha, hl'⟩ := List.pairwise_cons.1 hl
    induction r with
    | nil => simp [mergeL_nil_right]
    | cons b r ihr =>
      rw [mergeL_cons_cons]
      cases hab : gf a b with
      | true =>
        simp only [if_true]
        by_cases hpa : k a = v <;> simp [List.filter_cons, hpa, ihl _ hl']
      | false =>
        simp only [Bool.false_eq_true, if_false]
        by_cases hpb : k b = v
        · have hfl : (a :: l).filter (fun x => decide (k x = v)) = [] := by
            refine List.filter_eq_nil_iff.2 ?_
            intro x hx
            rcases List.mem_cons.1 hx with hx | hx
            · subst hx
              intro hcon
              have hkab : k x = k b := by
                rw [of_decide_eq_true hcon, hpb]
              exact absurd (P1 x b hkab) (by simp [hab])
            · intro hcon
              have hkxb : k x = k b := by
                rw [of_decide_eq_true hcon, hpb]
              have h2 := P2 a b x hab hkxb
              rw [ha x hx] at h2
              simp at h2
          simp [List.filter_cons, hpb, ihr, hfl]
        · simp [List.filter_cons, hpb, ihr]

/-- Stability of the full sort: elements with key value `v` appear in the
output in their input order. -/
theorem mergeSortL_filter [DecidableEq β] (gf : α → α → Bool) (k : α → β)
    (htot : ∀ a b, gf a b = true ∨ gf b a = true)
    (htr : ∀ a b c, gf a b = true → gf b c = true → gf a c = true)
    (P1 : ∀ a b, k a = k b → gf a b = true)
    (P2 : ∀ a b x, gf a b = false → k x = k b → gf a x = false) (v : β) :
    ∀ fuel : Nat, ∀ l : List α, l.length ≤ fuel →
      (mergeSortL gf fuel l).filter (fun x => decide (k x = v)) =
        l.filter (fun x => decide (k x = v)) := by
  intro fuel
  induction fuel with
  | zero =>
    intro l hlen
    have hl : l = [] := List.length_eq_zero.1 (Nat.le_zero.1 hlen)
    subst hl
    rfl
  | succ fuel ih =>
    intro l hlen
    match l with
    | [] => rfl
    | [a] => rfl
    | a :: b :: t =>
      rw [mergeSortL_cons₂]
      have hlt : ((a :: b :: t).take ((t.length + 3) / 2)).length ≤ fuel := by
        simp only [List.length_take, List.length_cons] at *
        omega
      have hld : ((a :: b :: t).drop ((t.length + 3) / 2)).length ≤ fuel := by
        simp only [List.length_drop, List.length_cons] at *
        omega
      rw [mergeL_filter gf k P1 P2 v _ _ (mergeSortL_pairwise gf htot htr fuel _ hlt),
        ih _ hlt, ih _ hld, ← List.filter_append, List.take_append_drop]

end ListLevelSort

/-! ## Pointer level

Nodes are identified by natural numbers.  A heap assigns every node its
`next` and `prev` pointer; the task payload of node `i` is a fixed map
`val : Nat → Task` (no container operation ever writes a task field).
-/

/-- The pointer fields of all nodes. -/
structure Heap where
  nxt : Nat → Option Nat
  prv : Nat → Option Nat

/-- Pointer assignment `f[a] := v` (one field write). -/
def upd (f : Nat → Option Nat) (a : Nat) (v : Option Nat) : Nat → Option Nat :=
  fun x => if x = a then v else f x

/-- The mutable state of a `TaskList` (lines 73-75): `head` and `count`.
`count` is an integer, as in Python (it can go negative through the
unconditional decrement of `delete_task_node`). -/
structure TaskList where
  head : Option Nat
  count : Int
deriving DecidableEq

/-- `dlink h a l`: starting at node `a`, the nodes of `l` follow in order,
every consecutive pair doubly linked (`x.next = y` and `y.prev = x`).
Nothing is said about `a`'s `prev` or about the last node's `next`. -/
def dlink (h : Heap) : Nat → List Nat → Bool
  | _, [] => true
  | a, b :: l => (h.nxt a == some b) && (h.prv b == some a) && dlink h b l

/-- Last node of the chain `a :: l`. -/
def lastD (a : Nat) : List Nat → Nat
  | [] => a
  | b :: l => lastD b l

/-- `isSeg h r ids`: `r` points to a fully detached doubly linked segment
whose head-to-tail node sequence is exactly `ids`: the head's `prev` and
the last node's `next` are null, consecutive nodes are symmetrically
linked. -/
def isSeg (h : Heap) : Option Nat → List Nat → Bool
  | none, [] => true
  | some a, b :: l =>
    (a == b) && (h.prv a == none) && dlink h a l && (h.nxt (lastD a l) == none)
  | _, _ => false

/-- `runSeg h a l`: the chain `a :: l` is linked and ends with a null
`next`; the head's `prev` is unconstrained (the merge loop overwrites it
before it is ever read). -/
def runSeg (h : Heap) (a : Nat) (l : List Nat) : Bool :=
  dlink h a l && (h.nxt (lastD a l) == none)

/-- The tail-scan loop of `TaskList.add_task_node` (lines 90-92):
`while current.next: current = current.next`. -/
def findTail (h : Heap) : Nat → Nat → Nat
  | 0, c => c
  | fuel + 1, c =>
    match h.nxt c with
    | none => c
    | some n => findTail h fuel n

/-- `TaskList.add_task_node` (lines 85-95): append an existing node at the
end.  `newId` is the identity of a freshly constructed `TaskNode`, so its
`next`/`prev` are null by construction.  `fuel` bounds the tail scan. -/
def add_task_node (h : Heap) (st : TaskList) (fuel : Nat) (newId : Nat) :
    Heap × TaskList :=
  match st.head with
  | none => (h, { head := some newId, count := st.count + 1 })
  | some hd =>
    let c := findTail h fuel hd
    let h1 : Heap := { nxt := upd h.nxt c (some newId), prv := h.prv }
    let h2 : Heap := { nxt := h1.nxt, prv := upd h1.prv newId (some c) }
    (h2, { st with count := st.count + 1 })

/-- `TaskList.delete_task_node` (lines 97-110), translated write by write.
Note that `count` is decremented on every call, even when the node does not
belong to the list. -/
def delete_task_node (h : Heap) (st : TaskList) (node : Nat) :
    Heap × TaskList :=
  if st.head == some node then
    let newHead := h.nxt node
    let h1 : Heap :=
      match newHead with
      | some nh => { nxt := h.nxt, prv := upd h.prv nh none }
      | none => h
    (h1, { head := newHead, count := st.count - 1 })
  else
    let h1 : Heap :=
      match h.prv node with
      | some p => { nxt := upd h.nxt p (h.nxt node), prv := h.prv }
      | none => h
    let h2 : Heap :=
      match h1.nxt node with
      | some n => { nxt := h1.nxt, prv := upd h1.prv n (h1.prv node) }
      | none => h1
    (h2, { st with count := st.count - 1 })

/-- `TaskList.get_tasks_by_status` (lines 114-122): a pure forward scan; it
never mutates the container. -/
def get_tasks_by_status (val : Nat → Task) (h : Heap) (status : String) :
    Nat → Option Nat → List Nat
  | 0, _ => []
  | _ + 1, none => []
  | fuel + 1, some a =>
    if (val a).status = status then
      a :: get_tasks_by_status val h status fuel (h.nxt a)
    else get_tasks_by_status val h status fuel (h.nxt a)

/-- The tombstone sweep of `App.refresh_ui` (lines 533-539): one forward
pass that captures `next_node = current.next` before possibly unlinking
`current`. -/
def sweepLoop (val : Nat → Task) :
    Nat → Heap → TaskList → Option Nat → Heap × TaskList
  | 0, h, st, _ => (h, st)
  | _ + 1, h, st, none => (h, st)
  | fuel + 1, h, st, some cur =>
    let next_node := h.nxt cur
    if (val cur).status = "deleted" then
      let res := delete_task_node h st cur
      sweepLoop val fuel res.1 res.2 next_node
    else
      sweepLoop val fuel h st next_node

/-- The whole sweep, starting at the container head. -/
def sweepRemoved (val : Nat → Task) (fuel : Nat) (h : Heap) (st : TaskList) :
    Heap × TaskList :=
  sweepLoop val fuel h st st.head

/-- The forward recount loop of `TaskList.sort_by` (lines 224-229). -/
def countFrom (h : Heap) : Nat → Option Nat → Nat
  | 0, _ => 0
  | _ + 1, none => 0
  | fuel + 1, some a => countFrom h fuel (h.nxt a) + 1

/-- The slow/fast loop of `TaskList._split` (lines 137-141).  `slow` always
points at a real node; `fast` may be null.  On the segments the program
builds, `slow.next` is null only when the loop is about to stop, so the
defensive `none` fallback is never taken under the theorems' hypotheses. -/
def splitLoop (h : Heap) : Nat → Nat → Option Nat → Nat
  | 0, slow, _ => slow
  | fuel + 1, slow, fast =>
    match fast with
    | none => slow
    | some f =>
      match h.nxt f with
      | none => slow
      | some f2 =>
        match h.nxt slow with
        | none => slow
        | some s2 => splitLoop h fuel s2 (h.nxt f2)

/-- `TaskList._split` (lines 135-150): find `slow`, detach
(`second_half.prev = None` when non-null, then `slow.next = None`), return
both halves. -/
def splitPtr (h : Heap) (fuel : Nat) (head : Nat) : Heap × Nat × Option Nat :=
  let slow := splitLoop h fuel head (h.nxt head)
  let second_half := h.nxt slow
  let h1 : Heap :=
    match second_half with
    | some s => { nxt := h.nxt, prv := upd h.prv s none }
    | none => h
  let h2 : Heap := { nxt := upd h1.nxt slow none, prv := h1.prv }
  (h2, head, second_half)

/-- The sort keys accepted by `TaskList.sort_by`. -/
inductive SortKey
  | priority
  | due_date
deriving DecidableEq

/-- `{"high": 3, "medium": 2, "low": 1}.get(node.priority, 0)`
(`_merge.get_value`, line 159). -/
def priorityValue (p : String) : Nat :=
  if p = "high" then 3
  else if p = "medium" then 2
  else if p = "low" then 1
  else 0

/-- `node.due_date if node.due_date else "9999-12-31"` (line 162).  Python
truthiness: both `None` and the empty string fall back to the sentinel
date. -/
def dueValue (dd : Option String) : String :=
  match dd with
  | some d => if d = "" then "9999-12-31" else d
  | none => "9999-12-31"

/-- Python compares `str` values lexicographically by code points; this is
that order on the underlying character lists, written out so that it
computes by structural recursion. -/
def strLeB : List Char → List Char → Bool
  | [], _ => true
  | _ :: _, [] => false
  | a :: s, b :: t =>
    if a.toNat < b.toNat then true
    else if b.toNat < a.toNat then false
    else strLeB s t

/-- `a <= b` on Python strings: lexicographic by code point. -/
def strLe (a b : String) : Bool :=
  strLeB a.data b.data

theorem strLeB_refl : ∀ s, strLeB s s = true
  | [] => rfl
  | a :: s => by simp [strLeB, strLeB_refl s]

theorem strLeB_total : ∀ s t, strLeB s t = true ∨ strLeB t s = true := by
  intro s
  induction s with
  | nil => intro t; left; rfl
  | cons a s ih =>
    intro t
    match t with
    | [] => right; rfl
    | b :: t =>
      by_cases h1 : a.toNat < b.toNat
      · left; simp [strLeB, h1]
      · by_cases h2 : b.toNat < a.toNat
        · right; simp [strLeB, h2]
        · rcases ih t with h | h
          · left; simp [strLeB, h1, h2, h]
          · right; simp [strLeB, h1, h2, h]

theorem strLeB_trans : ∀ s t u, strLeB s t = true → strLeB t u = true →
    strLeB s u = true := by
  intro s
  induction s with
  | nil => intro t u _ _; rfl
  | cons a s ih =>
    intro t u hst htu
    match t, u with
    | [], _ => simp [strLeB] at hst
    | b :: t, [] => simp [strLeB] at htu
    | b :: t, c :: u =>
      simp only [strLeB] at hst htu ⊢
      by_cases hab : a.toNat < b.toNat
      · by_cases hbc : b.toNat < c.toNat
        · have hac : a.toNat < c.toNat := by omega
          simp [hac]
        · by_cases hcb : c.toNat < b.toNat
          · simp [hbc, hcb] at htu
          · have hac : a.toNat < c.toNat := by omega
            simp [hac]
      · by_cases hba : b.toNat < a.toNat
        · simp [hab, hba] at hst
        · simp [hab, hba] at hst
          by_cases hbc : b.toNat < c.toNat
          · have hac : a.toNat < c.toNat := by omega
            simp [hac]
          · by_cases hcb : c.toNat < b.toNat
            · simp [hbc, hcb] at htu
            · simp [hbc, hcb] at htu
              have hn1 : ¬ a.toNat < c.toNat := by omega
              have hn2 : ¬ c.toNat < a.toNat := by omega
              simp [hn1, hn2]
              exact ih t u hst htu

/-- The branch condition of the merge loop (lines 173-192): the left node
is appended when `val_left >= val_right` for the priority key (descending)
and when `val_left <= val_right` for the due-date key (ascending, Python
string comparison).  The two loop bodies of the source are identical apart
from this condition. -/
def goesFirst (val : Nat → Task) (key : SortKey) (a b : Nat) : Bool :=
  match key with
  | .priority => decide (priorityValue (val b).priority ≤ priorityValue (val a).priority)
  | .due_date => strLe (dueValue (val a).due_date) (dueValue (val b).due_date)

/-- The `while left and right` loop of `TaskList._merge` (lines 168-194):
`tail.next = chosen; chosen.prev = tail; chosen side = chosen.next;
tail = chosen`.  Returns the heap, the final `tail`, and the final
`left`/`right` pointers. -/
def mergeLoop (gf : Nat → Nat → Bool) :
    Nat → Heap → Nat → Option Nat → Option Nat →
      Heap × Nat × Option Nat × Option Nat
  | 0, h, tail, l, r => (h, tail, l, r)
  | fuel + 1, h, tail, some a, some b =>
    if gf a b then
      let h1 : Heap :=
        { nxt := upd h.nxt tail (some a), prv := upd h.prv a (some tail) }
      mergeLoop gf fuel h1 a (h1.nxt a) (some b)
    else
      let h1 : Heap :=
        { nxt := upd h.nxt tail (some b), prv := upd h.prv b (some tail) }
      mergeLoop gf fuel h1 b (some a) (h1.nxt b)
  | _ + 1, h, tail, l, r => (h, tail, l, r)

/-- `remaining = left if left else right; if remaining:
tail.next = remaining; remaining.prev = tail` (lines 196-200). -/
def mergeAttach (h : Heap) (tail : Nat) (l r : Option Nat) : Heap :=
  let remaining :=
    match l with
    | some _ => l
    | none => r
  match remaining with
  | some rem =>
    { nxt := upd h.nxt tail remaining, prv := upd h.prv rem (some tail) }
  | none => h

/-- `TaskList._merge` (lines 152-206).  The Python code allocates a fresh
throwaway `dummy` head per call; its identity is passed explicitly and is
required to lie outside the merged segments.  Its fields are written before
ever being read on non-empty inputs, so reusing one identity across calls
is unobservable. -/
def mergePtr (gf : Nat → Nat → Bool) (dummy : Nat) (fuel : Nat) (h : Heap)
    (l r : Option Nat) : Heap × Option Nat :=
  let res := mergeLoop gf fuel h dummy l r
  let h2 := mergeAttach res.1 res.2.1 res.2.2.1 res.2.2.2
  let merged_head := h2.nxt dummy
  let h3 : Heap :=
    match merged_head with
    | some m => { nxt := h2.nxt, prv := upd h2.prv m none }
    | none => h2
  (h3, merged_head)

/-- `TaskList.merge_sort` (lines 208-218): base cases for the empty and
single-node segment, otherwise split, recurse on both halves, merge.
`fuel ≥ segment length` makes the fuel irrelevant. -/
def mergeSortPtr (gf : Nat → Nat → Bool) (dummy : Nat) :
    Nat → Heap → Option Nat → Heap × Option Nat
  | 0, h, headOpt => (h, headOpt)
  | fuel + 1, h, headOpt =>
    match headOpt with
    | none => (h, none)
    | some hd =>
      match h.nxt hd with
      | none => (h, some hd)
      | some _ =>
        let s := splitPtr h (fuel + 1) hd
        let l1 := mergeSortPtr gf dummy fuel s.1 (some s.2.1)
        let r1 := mergeSortPtr gf dummy fuel l1.1 s.2.2
        mergePtr gf dummy (fuel + 1) r1.1 l1.2 r1.2

/-- `TaskList.sort_by` (lines 220-229): sort the whole list, then recount
`count` by forward traversal. -/
def sort_by (val : Nat → Task) (key : SortKey) (dummy fuel : Nat) (h : Heap)
    (st : TaskList) : Heap × TaskList :=
  let res := mergeSortPtr (goesFirst val key) dummy fuel h st.head
  (res.1, { head := res.2, count := (countFrom res.1 fuel res.2 : Int) })

/-- The structural invariant of a container (spec §3): some duplicate-free
node sequence `ids` is laid out as a fully detached doubly linked segment
from `head` (symmetric links, null `head.prev` and tail `next`, traversal
terminates without revisiting), and `count` equals its length. -/
def inv (h : Heap) (st : TaskList) (ids : List Nat) : Prop :=
  isSeg h st.head ids = true ∧ ids.Nodup ∧ st.count = ids.length

/-! ### Basic lemmas about the heap predicates -/

theorem upd_same (f : Nat → Option Nat) (a : Nat) (v : Option Nat) :
    upd f a v a = v := by
  simp [upd]

theorem upd_ne (f : Nat → Option Nat) (a : Nat) (v : Option Nat) (x : Nat)
    (h : x ≠ a) : upd f a v x = f x := by
  simp [upd, h]

theorem dlink_cons_iff (h : Heap) (a b : Nat) (l : List Nat) :
    dlink h a (b :: l) = true ↔
      h.nxt a = some b ∧ h.prv b = some a ∧ dlink h b l = true := by
  simp [dlink, and_assoc]

theorem isSeg_nil_iff (h : Heap) (r : Option Nat) :
    isSeg h r [] = true ↔ r = none := by
  cases r <;> simp [isSeg]

theorem isSeg_cons_iff (h : Heap) (r : Option Nat) (b : Nat) (l : List Nat) :
    isSeg h r (b :: l) = true ↔
      r = some b ∧ h.prv b = none ∧ dlink h b l = true ∧
        h.nxt (lastD b l) = none := by
  cases r with
  | none => simp [isSeg]
  | some a =>
    simp only [isSeg, Bool.and_eq_true, beq_iff_eq, Option.some_inj]
    constructor
    · rintro ⟨⟨⟨hab, hp⟩, hd⟩, hn⟩
      subst hab
      exact ⟨rfl, hp, hd, hn⟩
    · rintro ⟨hab, hp, hd, hn⟩
      cases hab
      exact ⟨⟨⟨rfl, hp⟩, hd⟩, hn⟩

theorem runSeg_iff (h : Heap) (a : Nat) (l : List Nat) :
    runSeg h a l = true ↔ dlink h a l = true ∧ h.nxt (lastD a l) = none := by
  simp [runSeg]

theorem isSeg_some_runSeg (h : Heap) (a : Nat) (l : List Nat)
    (hs : isSeg h (some a) (a :: l) = true) : runSeg h a l = true := by
  obtain ⟨-, -, hd, hn⟩ := (isSeg_cons_iff h (some a) a l).1 hs
  exact (runSeg_iff h a l).2 ⟨hd, hn⟩

theorem lastD_mem (a : Nat) (l : List Nat) : lastD a l ∈ a :: l := by
  induction l generalizing a with
  | nil => simp [lastD]
  | cons b l ih =>
    rcases List.mem_cons.1 (ih b) with hb | hb
    · simp [lastD, hb]
    · simp [lastD, List.mem_cons.2 (Or.inr hb)]

theorem lastD_append (a : Nat) (l₁ l₂ : List Nat) :
    lastD a (l₁ ++ l₂) = lastD (lastD a l₁) l₂ := by
  induction l₁ generalizing a with
  | nil => rfl
  | cons b l₁ ih => simp [lastD, ih]

theorem lastD_eq_getLast (a : Nat) (l : List Nat) :
    lastD a l = (a :: l).getLast (List.cons_ne_nil a l) := by
  induction l generalizing a with
  | nil => rfl
  | cons b l ih => rw [lastD, List.getLast_cons (List.cons_ne_nil b l), ih]

/-- In a duplicate-free chain the last node is not among the others. -/
theorem lastD_not_mem_dropLast (a : Nat) (l : List Nat)
    (hnd : (a :: l).Nodup) : lastD a l ∉ (a :: l).dropLast := by
  intro hmem
  have hsplit := List.dropLast_append_getLast (List.cons_ne_nil a l)
  rw [← lastD_eq_getLast] at hsplit
  rw [← hsplit] at hnd
  exact (List.disjoint_of_nodup_append hnd) hmem (by simp)

theorem dlink_append (h : Heap) :
    ∀ (l₁ : List Nat) (a : Nat) (l₂ : List Nat),
      dlink h a (l₁ ++ l₂) = (dlink h a l₁ && dlink h (lastD a l₁) l₂) := by
  intro l₁
  induction l₁ with
  | nil => intro a l₂; simp [dlink, lastD]
  | cons b l₁ ih =>
    intro a l₂
    simp [dlink, lastD, ih b l₂, Bool.and_assoc]

/-- `dlink` only reads the `next` of all but the last node and the `prev`
of all but the first. -/
theorem dlink_congr (h h' : Heap) :
    ∀ (l : List Nat) (a : Nat),
      (∀ x ∈ (a :: l).dropLast, h'.nxt x = h.nxt x) →
      (∀ x ∈ l, h'.prv x = h.prv x) →
      dlink h' a l = dlink h a l := by
  intro l
  induction l with
  | nil => intro a _ _; rfl
  | cons b l ih =>
    intro a hn hp
    have ha : h'.nxt a = h.nxt a := hn a (by cases l <;> simp)
    have hb : h'.prv b = h.prv b := hp b (by simp)
    have hrec : dlink h' b l = dlink h b l := by
      refine ih b ?_ ?_
      · intro x hx
        refine hn x ?_
        cases l with
        | nil => simp at hx
        | cons c l => simpa using Or.inr (by simpa using hx)
      · intro x hx
        exact hp x (List.mem_cons.2 (Or.inr hx))
    simp [dlink, ha, hb, hrec]

/-- Coarse congruence for whole detached segments. -/
theorem isSeg_congr (h h' : Heap) (r : Option Nat) (ids : List Nat)
    (hn : ∀ x ∈ ids, h'.nxt x = h.nxt x)
    (hp : ∀ x ∈ ids, h'.prv x = h.prv x) :
    isSeg h' r ids = isSeg h r ids := by
  cases r with
  | none => cases ids <;> rfl
  | some a =>
    cases ids with
    | nil => rfl
    | cons b l =>
      have h1 : h'.prv a = h.prv a ∨ (a == b) = false := by
        by_cases hab : a = b
        · exact Or.inl (hab ▸ hp b (by simp))
        · exact Or.inr (by simp [hab])
      have h2 : dlink h' b l = dlink h b l := by
        refine dlink_congr h h' l b ?_ ?_
        · intro x hx
          exact hn x (List.mem_of_mem_dropLast hx)
        · intro x hx
          exact hp x (List.mem_cons.2 (Or.inr hx))
      have h3 : h'.nxt (lastD b l) = h.nxt (lastD b l) :=
        hn _ (lastD_mem b l)
      rcases h1 with h1 | h1
      · by_cases hab : a = b
        · subst hab
          simp [isSeg, h1, h2, h3]
        · simp [isSeg, show (a == b) = false by simp [hab]]
      · simp [isSeg, h1]

/-- The forward (`next`-only) view of a chain, used by the loops that never
read `prev` (`findTail`, `countFrom`, the slow/fast split loop). -/
def nchain (h : Heap) : Nat → List Nat → Bool
  | _, [] => true
  | a, b :: l => (h.nxt a == some b) && nchain h b l

theorem nchain_of_dlink (h : Heap) :
    ∀ (l : List Nat) (a : Nat), dlink h a l = true → nchain h a l = true := by
  intro l
  induction l with
  | nil => intro a _; rfl
  | cons b l ih =>
    intro a hd
    obtain ⟨h1, -, h3⟩ := (dlink_cons_iff h a b l).1 hd
    simp [nchain, h1, ih b h3]

theorem nchain_cons_iff (h : Heap) (a b : Nat) (l : List Nat) :
    nchain h a (b :: l) = true ↔ h.nxt a = some b ∧ nchain h b l = true := by
  simp [nchain]

/-- `lastD` over a `take` is indexing: the `i`-th node of the chain. -/
theorem lastD_take (a : Nat) :
    ∀ (i : Nat) (l : List Nat), i ≤ l.length →
      lastD a (l.take i) = (a :: l).getD i 0 := by
  intro i
  induction i generalizing a with
  | zero => intro l _; simp [lastD]
  | succ i ih =>
    intro l hle
    cases l with
    | nil => simp at hle
    | cons b l =>
      simp only [List.take_succ_cons, lastD, List.getD_cons_succ]
      exact ih b l (by simpa using hle)

/-- The tail scan of `add_task_node` reaches the last node of the chain. -/
theorem findTail_spec (h : Heap) :
    ∀ (l : List Nat) (a : Nat) (fuel : Nat),
      nchain h a l = true → h.nxt (lastD a l) = none → l.length ≤ fuel →
      findTail h fuel a = lastD a l := by
  intro l
  induction l with
  | nil =>
    intro a fuel _ hn _
    cases fuel with
    | zero => rfl
    | succ fuel => simp [findTail, lastD] at hn ⊢; simp [hn]
  | cons b l ih =>
    intro a fuel hc hn hfuel
    obtain ⟨h1, h2⟩ := (nchain_cons_iff h a b l).1 hc
    cases fuel with
    | zero => simp at hfuel
    | succ fuel =>
      simp only [findTail, h1, lastD]
      exact ih b fuel h2 hn (by simpa using hfuel)

/-- The recount loop of `sort_by` counts the chain length. -/
theorem countFrom_run (h : Heap) :
    ∀ (l : List Nat) (a : Nat) (fuel : Nat),
      nchain h a l = true → h.nxt (lastD a l) = none → l.length + 1 ≤ fuel →
      countFrom h fuel (some a) = l.length + 1 := by
  intro l
  induction l with
  | nil =>
    intro a fuel _ hn hfuel
    cases fuel with
    | zero => simp at hfuel
    | succ fuel =>
      simp only [lastD] at hn
      cases fuel with
      | zero => simp [countFrom, hn]
      | succ fuel => simp [countFrom, hn]
  | cons b l ih =>
    intro a fuel hc hn hfuel
    obtain ⟨h1, h2⟩ := (nchain_cons_iff h a b l).1 hc
    cases fuel with
    | zero => simp at hfuel
    | succ fuel =>
      simp only [countFrom, h1]
      rw [ih b fuel h2 hn (by simpa using hfuel)]
      simp

theorem countFrom_spec (h : Heap) (ids : List Nat) (r : Option Nat)
    (fuel : Nat) (hseg : isSeg h r ids = true)
    (hfuel : ids.length ≤ fuel) : countFrom h fuel r = ids.length := by
  cases ids with
  | nil =>
    rw [(isSeg_nil_iff h r).1 hseg]
    cases fuel <;> rfl
  | cons a l =>
    obtain ⟨hr, -, hd, hn⟩ := (isSeg_cons_iff h r a l).1 hseg
    subst hr
    rw [countFrom_run h l a fuel (nchain_of_dlink h l a hd) hn (by simpa using hfuel)]
    simp

/-- Forward view of an optional chain pointer: `ro` heads the
null-terminated `next`-chain `l` (the `prev` side is irrelevant).  This is
what the `fast` pointer of the split loop ranges over. -/
def optNChain (h : Heap) : Option Nat → List Nat → Bool
  | none, [] => true
  | some f, f' :: fr =>
    (f == f') && nchain h f fr && (h.nxt (lastD f fr) == none)
  | _, _ => false

theorem optNChain_cons_iff (h : Heap) (ro : Option Nat) (b : Nat)
    (l : List Nat) :
    optNChain h ro (b :: l) = true ↔
      ro = some b ∧ nchain h b l = true ∧ h.nxt (lastD b l) = none := by
  cases ro with
  | none => simp [optNChain]
  | some f =>
    simp only [optNChain, Bool.and_eq_true, beq_iff_eq, Option.some_inj]
    constructor
    · rintro ⟨⟨hfb, hc⟩, hn⟩
      subst hfb
      exact ⟨rfl, hc, hn⟩
    · rintro ⟨hfb, hc, hn⟩
      cases hfb
      exact ⟨⟨rfl, hc⟩, hn⟩

/-- The slow/fast loop: if `fast` heads a null-terminated chain of the
nodes `fr` and `slow` heads a chain `s :: sr`, then `slow` advances exactly
`⌊fr.length / 2⌋` times. -/
theorem splitLoop_spec (h : Heap) :
    ∀ (fr : List Nat) (fo : Option Nat) (s : Nat) (sr : List Nat)
      (fuel : Nat),
      optNChain h fo fr = true →
      nchain h s sr = true →
      fr.length / 2 ≤ sr.length →
      fr.length / 2 ≤ fuel →
      splitLoop h fuel s fo = (s :: sr).getD (fr.length / 2) 0 := by
  intro fr
  induction fr using splitSteps.induct with
  | case1 =>
    intro fo s sr fuel hf _ _ _
    have hfo : fo = none := by
      cases fo with
      | none => rfl
      | some f => simp [optNChain] at hf
    subst hfo
    have h0 : ([] : List Nat).length / 2 = 0 := by simp
    rw [h0]
    cases fuel <;> simp [splitLoop]
  | case2 f0 =>
    intro fo s sr fuel hf _ _ _
    obtain ⟨hfo, -, hn⟩ := (optNChain_cons_iff h fo f0 []).1 hf
    subst hfo
    simp only [lastD] at hn
    have h0 : [f0].length / 2 = 0 := by simp
    rw [h0]
    cases fuel with
    | zero => simp [splitLoop]
    | succ fuel => simp [splitLoop, hn]
  | case3 f0 f1 fs ih =>
    intro fo s sr fuel hf hs hsr hfuel
    obtain ⟨hfo, hc, hn⟩ := (optNChain_cons_iff h fo f0 (f1 :: fs)).1 hf
    subst hfo
    obtain ⟨hf01, hc1⟩ := (nchain_cons_iff h f0 f1 fs).1 hc
    have hidx : (f0 :: f1 :: fs).length / 2 = fs.length / 2 + 1 := by
      simp only [List.length_cons]
      omega
    rw [hidx] at hsr hfuel ⊢
    cases sr with
    | nil => simp at hsr
    | cons s2 sr' =>
      obtain ⟨hss2, hs'⟩ := (nchain_cons_iff h s s2 sr').1 hs
      cases fuel with
      | zero => simp at hfuel
      | succ fuel =>
        simp only [splitLoop, hf01, hss2, List.getD_cons_succ]
        refine ih (h.nxt f1) s2 sr' fuel ?_ hs' (by simpa using hsr)
          (by omega)
        cases fs with
        | nil =>
          simp only [lastD] at hn
          simp [optNChain, hn]
        | cons g gs =>
          obtain ⟨hf1g, hcg⟩ := (nchain_cons_iff h f1 g gs).1 hc1
          refine (optNChain_cons_iff h (h.nxt f1) g gs).2 ⟨hf1g, hcg, ?_⟩
          simpa [lastD] using hn

/-- Closed form of `splitPtr` once the slow pointer's landing node is
known. -/
theorem splitPtr_eq (h : Heap) (fuel : Nat) (hd slow : Nat)
    (hslow : splitLoop h fuel hd (h.nxt hd) = slow) :
    splitPtr h fuel hd =
      match h.nxt slow with
      | some s =>
        ({ nxt := upd h.nxt slow none, prv := upd h.prv s none }, hd, some s)
      | none => ({ nxt := upd h.nxt slow none, prv := h.prv }, hd, none) := by
  subst hslow
  simp only [splitPtr]
  cases h.nxt (splitLoop h fuel hd (h.nxt hd)) <;> rfl

/-- `TaskList._split` on a detached duplicate-free segment of `n ≥ 1`
nodes: the left half keeps the first `⌊(n-1)/2⌋ + 1 = ⌈n/2⌉` nodes, the
right half the rest; both halves are fully detached; only `slow.next` and
the right head's `prev` are written. -/
theorem splitPtr_spec (h : Heap) (hd : Nat) (rest : List Nat) (fuel : Nat)
    (hseg : isSeg h (some hd) (hd :: rest) = true)
    (hnd : (hd :: rest).Nodup)
    (hfuel : rest.length ≤ fuel) :
    (splitPtr h fuel hd).2.1 = hd ∧
    isSeg (splitPtr h fuel hd).1 (some hd)
        ((hd :: rest).take (rest.length / 2 + 1)) = true ∧
    isSeg (splitPtr h fuel hd).1 (splitPtr h fuel hd).2.2
        ((hd :: rest).drop (rest.length / 2 + 1)) = true ∧
    (∀ x, x ∉ hd :: rest → (splitPtr h fuel hd).1.nxt x = h.nxt x) ∧
    (∀ x, x ∉ hd :: rest → (splitPtr h fuel hd).1.prv x = h.prv x) := by
  obtain ⟨-, hp0, hdl, hnl⟩ := (isSeg_cons_iff h (some hd) hd rest).1 hseg
  have hfast : optNChain h (h.nxt hd) rest = true := by
    cases rest with
    | nil =>
      simp only [lastD] at hnl
      simp [optNChain, hnl]
    | cons b t =>
      obtain ⟨h1, -, h3⟩ := (dlink_cons_iff h hd b t).1 hdl
      refine (optNChain_cons_iff h (h.nxt hd) b t).2
        ⟨h1, nchain_of_dlink h t b h3, ?_⟩
      simpa [lastD] using hnl
  have hidx : rest.length / 2 ≤ rest.length := Nat.div_le_self _ _
  have hslow : splitLoop h fuel hd (h.nxt hd) =
      lastD hd (rest.take (rest.length / 2)) := by
    rw [splitLoop_spec h rest (h.nxt hd) hd rest fuel hfast
      (nchain_of_dlink h rest hd hdl) hidx (le_trans hidx hfuel)]
    rw [lastD_take hd (rest.length / 2) rest hidx]
  rw [splitPtr_eq h fuel hd _ hslow]
  have hdecomp : rest = rest.take (rest.length / 2) ++ rest.drop (rest.length / 2) :=
    (List.take_append_drop _ _).symm
  have hdla : dlink h hd rest =
      (dlink h hd (rest.take (rest.length / 2)) &&
        dlink h (lastD hd (rest.take (rest.length / 2))) (rest.drop (rest.length / 2))) := by
    conv in dlink h hd rest => rw [hdecomp]
    exact dlink_append h _ hd _
  have hdl2 := hdla ▸ hdl
  rw [Bool.and_eq_true] at hdl2
  obtain ⟨hdlTake, hdlDrop⟩ := hdl2
  have hlastsplit : lastD hd rest =
      lastD (lastD hd (rest.take (rest.length / 2))) (rest.drop (rest.length / 2)) := by
    conv in lastD hd rest => rw [hdecomp]
    exact lastD_append hd _ _
  have hndTake : (hd :: rest.take (rest.length / 2)).Nodup := by
    refine List.Nodup.sublist ?_ hnd
    exact List.cons_sublist_cons.2 (List.take_sublist _ _)
  have hslowmem : lastD hd (rest.take (rest.length / 2)) ∈
      hd :: rest.take (rest.length / 2) := lastD_mem _ _
  have htakemem : ∀ x ∈ hd :: rest.take (rest.length / 2), x ∈ hd :: rest := by
    intro x hx
    rcases List.mem_cons.1 hx with hx | hx
    · simp [hx]
    · exact List.mem_cons.2 (Or.inr (List.mem_of_mem_take hx))
  have hdisj : ∀ x ∈ hd :: rest.take (rest.length / 2),
      ∀ y ∈ rest.drop (rest.length / 2), x ≠ y := by
    intro x hx y hy
    have hnd' : ((hd :: rest.take (rest.length / 2)) ++
        rest.drop (rest.length / 2)).Nodup := by
      rw [List.cons_append, ← hdecomp]
      exact hnd
    exact fun hxy => (List.disjoint_of_nodup_append hnd') hx (hxy ▸ hy)
  cases hdrop : rest.drop (rest.length / 2) with
  | nil =>
    have hlen0 : rest.length ≤ rest.length / 2 := by
      have hcg := congrArg List.length hdrop
      simp only [List.length_drop, List.length_nil] at hcg
      omega
    have hrest : rest = [] := List.length_eq_zero.1 (by omega)
    subst hrest
    simp only [List.take_nil, lastD] at hslow ⊢
    simp only [lastD] at hnl
    rw [hnl]
    refine ⟨rfl, ?_, ?_, ?_, ?_⟩
    · have htk : ([hd] : List Nat).take (([] : List Nat).length / 2 + 1) = [hd] := by
        simp
      rw [htk]
      refine (isSeg_cons_iff _ (some hd) hd []).2 ⟨rfl, hp0, rfl, ?_⟩
      show upd h.nxt hd none (lastD hd []) = none
      simp [lastD, upd_same]
    · have hdk : ([hd] : List Nat).drop (([] : List Nat).length / 2 + 1) = [] := by
        simp
      rw [hdk]
      rfl
    · intro x hx
      show upd h.nxt hd none x = h.nxt x
      exact upd_ne _ _ _ x (by simpa using hx)
    · intro x _
      rfl
  | cons w v' =>
    rw [hdrop] at hdlDrop
    obtain ⟨hslow_w, hprv_w, hdl_v'⟩ :=
      (dlink_cons_iff h (lastD hd (rest.take (rest.length / 2))) w v').1 hdlDrop
    rw [hslow_w]
    have hwmem : w ∈ rest.drop (rest.length / 2) := by simp [hdrop]
    have hslow_ne_w : lastD hd (rest.take (rest.length / 2)) ≠ w :=
      hdisj _ hslowmem w hwmem
    have htake_eq : (hd :: rest).take (rest.length / 2 + 1) =
        hd :: rest.take (rest.length / 2) := by
      simp
    have hdrop_eq : (hd :: rest).drop (rest.length / 2 + 1) = w :: v' := by
      simpa using hdrop
    rw [htake_eq, hdrop_eq]
    refine ⟨rfl, ?_, ?_, ?_, ?_⟩
    · refine (isSeg_cons_iff _ (some hd) hd _).2 ⟨rfl, ?_, ?_, ?_⟩
      · show upd h.prv w none hd = none
        rw [upd_ne _ _ _ hd (hdisj hd (by simp) w hwmem)]
        exact hp0
      · rw [dlink_congr h _ _ hd ?_ ?_]
        · exact hdlTake
        · intro x hx
          show upd h.nxt (lastD hd (rest.take (rest.length / 2))) none x = h.nxt x
          refine upd_ne _ _ _ x ?_
          intro hxeq
          exact lastD_not_mem_dropLast hd _ hndTake (hxeq ▸ hx)
        · intro x hx
          show upd h.prv w none x = h.prv x
          exact upd_ne _ _ _ x
            (hdisj x (List.mem_cons.2 (Or.inr hx)) w hwmem)
      · show upd h.nxt (lastD hd (rest.take (rest.length / 2))) none
            (lastD hd (rest.take (rest.length / 2))) = none
        exact upd_same _ _ _
    · refine (isSeg_cons_iff _ (some w) w v').2 ⟨rfl, ?_, ?_, ?_⟩
      · show upd h.prv w none w = none
        exact upd_same _ _ _
      · rw [dlink_congr h _ v' w ?_ ?_]
        · exact hdl_v'
        · intro x hx
          show upd h.nxt (lastD hd (rest.take (rest.length / 2))) none x = h.nxt x
          refine upd_ne _ _ _ x ?_
          intro hxeq
          have hxmem : x ∈ rest.drop (rest.length / 2) := by
            rw [hdrop]
            exact List.mem_of_mem_dropLast hx
          exact hdisj _ hslowmem x hxmem hxeq.symm
        · intro x hx
          show upd h.prv w none x = h.prv x
          refine upd_ne _ _ _ x ?_
          intro hxeq
          have hndDrop : (w :: v').Nodup := by
            rw [← hdrop]
            exact hnd.sublist (List.sublist_cons_of_sublist hd (List.drop_sublist _ _))
          rw [List.nodup_cons] at hndDrop
          exact hndDrop.1 (hxeq ▸ hx)
      · have hlw : lastD w v' ∈ rest.drop (rest.length / 2) := by
          rw [hdrop]
          exact lastD_mem w v'
        show upd h.nxt (lastD hd (rest.take (rest.length / 2))) none (lastD w v') = none
        rw [upd_ne _ _ _ _ (fun hc => hdisj _ hslowmem _ hlw hc.symm)]
        have hlast_eq : lastD hd rest = lastD w v' := by
          rw [hlastsplit, hdrop]
          rfl
        rw [← hlast_eq]
        exact hnl
    · intro x hx
      show upd h.nxt (lastD hd (rest.take (rest.length / 2))) none x = h.nxt x
      refine upd_ne _ _ _ x ?_
      intro hxeq
      exact hx (htakemem _ (hxeq ▸ hslowmem))
    · intro x hx
      show upd h.prv w none x = h.prv x
      refine upd_ne _ _ _ x ?_
      intro hxeq
      exact hx (List.mem_cons.2 (Or.inr (List.mem_of_mem_drop (hxeq ▸ hwmem))))

theorem runSeg_congr (h h' : Heap) (a : Nat) (l : List Nat)
    (hn : ∀ x ∈ a :: l, h'.nxt x = h.nxt x)
    (hp : ∀ x ∈ l, h'.prv x = h.prv x) :
    runSeg h' a l = runSeg h a l := by
  unfold runSeg
  rw [dlink_congr h h' l a (fun x hx => hn x (List.mem_of_mem_dropLast hx)) hp,
    hn _ (lastD_mem a l)]

/-- The merge loop followed by the remainder attach, as one function of the
heap (`TaskList._merge` lines 168-200 without the final head fix-up). -/
def mergeLA (gf : Nat → Nat → Bool) (fuel : Nat) (h : Heap) (tail : Nat)
    (l r : Option Nat) : Heap :=
  let res := mergeLoop gf fuel h tail l r
  mergeAttach res.1 res.2.1 res.2.2.1 res.2.2.2

theorem mergeLA_none_left (gf : Nat → Nat → Bool) (fuel : Nat) (h : Heap)
    (tail b : Nat) :
    mergeLA gf fuel h tail none (some b) =
      { nxt := upd h.nxt tail (some b), prv := upd h.prv b (some tail) } := by
  cases fuel <;> rfl

theorem mergeLA_some_none (gf : Nat → Nat → Bool) (fuel : Nat) (h : Heap)
    (tail a : Nat) :
    mergeLA gf fuel h tail (some a) none =
      { nxt := upd h.nxt tail (some a), prv := upd h.prv a (some tail) } := by
  cases fuel <;> rfl

theorem mergeLA_step (gf : Nat → Nat → Bool) (fuel : Nat) (h : Heap)
    (tail a b : Nat) :
    mergeLA gf (fuel + 1) h tail (some a) (some b) =
      if gf a b then
        mergeLA gf fuel
          { nxt := upd h.nxt tail (some a), prv := upd h.prv a (some tail) }
          a (upd h.nxt tail (some a) a) (some b)
      else
        mergeLA gf fuel
          { nxt := upd h.nxt tail (some b), prv := upd h.prv b (some tail) }
          b (some a) (upd h.nxt tail (some b) b) := by
  cases hgf : gf a b <;> simp [mergeLA, mergeLoop, hgf]

/-- Main merge simulation: starting from `tail` with two detached,
duplicate-free, disjoint runs, the loop-plus-attach chains `tail` to
exactly the list-level merge of the runs, null-terminates it, and writes no
pointer outside `tail.next` and the nodes of the two runs. -/
theorem mergeLA_spec (gf : Nat → Nat → Bool) :
    ∀ (fuel : Nat) (h : Heap) (tail la ra : Nat) (lrest rrest : List Nat),
      runSeg h la lrest = true →
      runSeg h ra rrest = true →
      ((la :: lrest) ++ ra :: rrest).Nodup →
      tail ∉ (la :: lrest) ++ ra :: rrest →
      lrest.length + rrest.length + 1 ≤ fuel →
      dlink (mergeLA gf fuel h tail (some la) (some ra)) tail
          (mergeL gf (la :: lrest) (ra :: rrest)) = true ∧
      (mergeLA gf fuel h tail (some la) (some ra)).nxt
          (lastD tail (mergeL gf (la :: lrest) (ra :: rrest))) = none ∧
      (∀ x, x ≠ tail → x ∉ (la :: lrest) ++ ra :: rrest →
        (mergeLA gf fuel h tail (some la) (some ra)).nxt x = h.nxt x) ∧
      (∀ x, x ∉ (la :: lrest) ++ ra :: rrest →
        (mergeLA gf fuel h tail (some la) (some ra)).prv x = h.prv x) := by
  intro fuel
  induction fuel with
  | zero =>
    intro h tail la ra lrest rrest _ _ _ _ hfuel
    omega
  | succ fuel ih =>
    intro h tail la ra lrest rrest hls hrs hnd htl hfuel
    obtain ⟨hdla, hnla⟩ := (runSeg_iff h la lrest).1 hls
    obtain ⟨hdra, hnra⟩ := (runSeg_iff h ra rrest).1 hrs
    have hdisj : ∀ x ∈ la :: lrest, ∀ y ∈ ra :: rrest, x ≠ y :=
      fun x hx y hy hc => (List.disjoint_of_nodup_append hnd) hx (hc ▸ hy)
    have hndl : (la :: lrest).Nodup := hnd.of_append_left
    have hndr : (ra :: rrest).Nodup := hnd.of_append_right
    have htail_ne_la : tail ≠ la := fun hc => htl (by simp [hc])
    have htail_ne_ra : tail ≠ ra := fun hc => htl (by simp [hc])
    have hla_ne_ra : la ≠ ra := hdisj la (by simp) ra (by simp)
    rw [mergeLA_step]
    cases hgf : gf la ra with
    | true =>
      rw [if_pos rfl]
      have hm : mergeL gf (la :: lrest) (ra :: rrest) =
          la :: mergeL gf lrest (ra :: rrest) := by
        rw [mergeL_cons_cons, if_pos hgf]
      have harg : upd h.nxt tail (some la) la = h.nxt la :=
        upd_ne _ _ _ la (Ne.symm htail_ne_la)
      rw [harg, hm]
      cases lrest with
      | nil =>
        simp only [lastD] at hnla
        rw [hnla, mergeLA_none_left]
        have hmr : mergeL gf ([] : List Nat) (ra :: rrest) = ra :: rrest := rfl
        rw [hmr]
        refine ⟨?_, ?_, ?_, ?_⟩
        · refine (dlink_cons_iff _ tail la _).2 ⟨?_, ?_, ?_⟩
          · show upd (upd h.nxt tail (some la)) la (some ra) tail = some la
            simp [upd, htail_ne_la, Ne.symm htail_ne_la]
          · show upd (upd h.prv la (some tail)) ra (some la) la = some tail
            simp [upd, hla_ne_ra]
          · refine (dlink_cons_iff _ la ra rrest).2 ⟨?_, ?_, ?_⟩
            · show upd (upd h.nxt tail (some la)) la (some ra) la = some ra
              simp [upd]
            · show upd (upd h.prv la (some tail)) ra (some la) ra = some la
              simp [upd]
            · rw [dlink_congr h _ rrest ra ?_ ?_]
              · exact hdra
              · intro x hx
                have hxm : x ∈ ra :: rrest := List.mem_of_mem_dropLast hx
                have h1 : x ≠ la := fun hc => hdisj la (by simp) x hxm hc.symm
                have h2 : x ≠ tail :=
                  fun hc => htl (hc ▸ List.mem_append.2 (Or.inr hxm))
                show upd (upd h.nxt tail (some la)) la (some ra) x = h.nxt x
                simp [upd, h1, h2]
              · intro x hx
                have hxm : x ∈ ra :: rrest := List.mem_cons.2 (Or.inr hx)
                have h1 : x ≠ ra :=
                  fun hc => (List.nodup_cons.1 hndr).1 (hc ▸ hx)
                have h2 : x ≠ la := fun hc => hdisj la (by simp) x hxm hc.symm
                show upd (upd h.prv la (some tail)) ra (some la) x = h.prv x
                simp [upd, h1, h2]
        · have hlast : lastD tail (la :: ra :: rrest) = lastD ra rrest := rfl
          rw [hlast]
          have hlm : lastD ra rrest ∈ ra :: rrest := lastD_mem ra rrest
          have h1 : lastD ra rrest ≠ la :=
            fun hc => hdisj la (by simp) _ hlm hc.symm
          have h2 : lastD ra rrest ≠ tail :=
            fun hc => htl (hc ▸ List.mem_append.2 (Or.inr hlm))
          show upd (upd h.nxt tail (some la)) la (some ra) (lastD ra rrest) = none
          simp [upd, h1, h2, hnra]
        · intro x hxt hxm
          have h1 : x ≠ la := fun hc => hxm (by simp [hc])
          show upd (upd h.nxt tail (some la)) la (some ra) x = h.nxt x
          simp [upd, h1, hxt]
        · intro x hxm
          have h1 : x ≠ la := fun hc => hxm (by simp [hc])
          have h2 : x ≠ ra := fun hc => hxm (by simp [hc])
          show upd (upd h.prv la (some tail)) ra (some la) x = h.prv x
          simp [upd, h1, h2]
      | cons la2 lrest' =>
        obtain ⟨hnla2, hpla2, hdla'⟩ := (dlink_cons_iff h la la2 lrest').1 hdla
        rw [hnla2]
        rw [List.cons_append] at hnd htl
        have hndtail := (List.nodup_cons.1 hnd).2
        have hlam := (List.nodup_cons.1 hnd).1
        have hls' : runSeg
            { nxt := upd h.nxt tail (some la), prv := upd h.prv la (some tail) }
            la2 lrest' = true := by
          rw [runSeg_congr h _ la2 lrest' ?_ ?_]
          · rw [runSeg_iff]
            refine ⟨hdla', ?_⟩
            simpa [lastD] using hnla
          · intro x hx
            have h2 : x ≠ tail := fun hc => htl (hc ▸ List.mem_cons.2
              (Or.inr (List.mem_append.2 (Or.inl hx))))
            show upd h.nxt tail (some la) x = h.nxt x
            simp [upd, h2]
          · intro x hx
            have h2 : x ≠ la := fun hc => hlam (hc ▸ List.mem_append.2
              (Or.inl (List.mem_cons.2 (Or.inr hx))))
            show upd h.prv la (some tail) x = h.prv x
            simp [upd, h2]
        have hrs' : runSeg
            { nxt := upd h.nxt tail (some la), prv := upd h.prv la (some tail) }
            ra rrest = true := by
          rw [runSeg_congr h _ ra rrest ?_ ?_]
          · exact hrs
          · intro x hx
            have h2 : x ≠ tail := fun hc => htl (hc ▸ List.mem_cons.2
              (Or.inr (List.mem_append.2 (Or.inr hx))))
            show upd h.nxt tail (some la) x = h.nxt x
            simp [upd, h2]
          · intro x hx
            have h2 : x ≠ la := fun hc => hlam (hc ▸ List.mem_append.2
              (Or.inr (List.mem_cons.2 (Or.inr hx))))
            show upd h.prv la (some tail) x = h.prv x
            simp [upd, h2]
        have htl' : tail ∉ (la2 :: lrest') ++ ra :: rrest :=
          fun hc => htl (List.mem_cons.2 (Or.inr hc))
        obtain ⟨ih1, ih2, ih3, ih4⟩ := ih
          { nxt := upd h.nxt tail (some la), prv := upd h.prv la (some tail) }
          la la2 ra lrest' rrest hls' hrs' hndtail hlam
          (by simp only [List.length_cons] at hfuel; omega)
        refine ⟨?_, ?_, ?_, ?_⟩
        · refine (dlink_cons_iff _ tail la _).2 ⟨?_, ?_, ih1⟩
          · rw [ih3 tail htail_ne_la htl']
            show upd h.nxt tail (some la) tail = some la
            simp [upd]
          · rw [ih4 la hlam]
            show upd h.prv la (some tail) la = some tail
            simp [upd]
        · have hlast : lastD tail (la :: mergeL gf (la2 :: lrest') (ra :: rrest)) =
              lastD la (mergeL gf (la2 :: lrest') (ra :: rrest)) := rfl
          rw [hlast]
          exact ih2
        · intro x hxt hxm
          have hx_ne_la : x ≠ la := fun hc => hxm (by simp [hc])
          have hx_nm : x ∉ (la2 :: lrest') ++ ra :: rrest :=
            fun hc => hxm (List.mem_cons.2 (Or.inr hc))
          rw [ih3 x hx_ne_la hx_nm]
          show upd h.nxt tail (some la) x = h.nxt x
          simp [upd, hxt]
        · intro x hxm
          have hx_ne_la : x ≠ la := fun hc => hxm (by simp [hc])
          have hx_nm : x ∉ (la2 :: lrest') ++ ra :: rrest :=
            fun hc => hxm (List.mem_cons.2 (Or.inr hc))
          rw [ih4 x hx_nm]
          show upd h.prv la (some tail) x = h.prv x
          simp [upd, hx_ne_la]
    | false =>
      rw [if_neg (by simp [hgf])]
      have hm : mergeL gf (la :: lrest) (ra :: rrest) =
          ra :: mergeL gf (la :: lrest) rrest := by
        rw [mergeL_cons_cons, if_neg (by simp [hgf])]
      have harg : upd h.nxt tail (some ra) ra = h.nxt ra :=
        upd_ne _ _ _ ra (Ne.symm htail_ne_ra)
      rw [harg, hm]
      cases rrest with
      | nil =>
        simp only [lastD] at hnra
        rw [hnra, mergeLA_some_none]
        have hmr : mergeL gf (la :: lrest) ([] : List Nat) = la :: lrest :=
          mergeL_nil_right gf (la :: lrest)
        rw [hmr]
        refine ⟨?_, ?_, ?_, ?_⟩
        · refine (dlink_cons_iff _ tail ra _).2 ⟨?_, ?_, ?_⟩
          · show upd (upd h.nxt tail (some ra)) ra (some la) tail = some ra
            simp [upd, htail_ne_ra, Ne.symm htail_ne_ra]
          · show upd (upd h.prv ra (some tail)) la (some ra) ra = some tail
            simp [upd, Ne.symm hla_ne_ra]
          · refine (dlink_cons_iff _ ra la lrest).2 ⟨?_, ?_, ?_⟩
            · show upd (upd h.nxt tail (some ra)) ra (some la) ra = some la
              simp [upd]
            · show upd (upd h.prv ra (some tail)) la (some ra) la = some ra
              simp [upd]
            · rw [dlink_congr h _ lrest la ?_ ?_]
              · exact hdla
              · intro x hx
                have hxm : x ∈ la :: lrest := List.mem_of_mem_dropLast hx
                have h1 : x ≠ ra := fun hc => hdisj x hxm ra (by simp) hc
                have h2 : x ≠ tail :=
                  fun hc => htl (hc ▸ List.mem_append.2 (Or.inl hxm))
                show upd (upd h.nxt tail (some ra)) ra (some la) x = h.nxt x
                simp [upd, h1, h2]
              · intro x hx
                have hxm : x ∈ la :: lrest := List.mem_cons.2 (Or.inr hx)
                have h1 : x ≠ la :=
                  fun hc => (List.nodup_cons.1 hndl).1 (hc ▸ hx)
                have h2 : x ≠ ra := fun hc => hdisj x hxm ra (by simp) hc
                show upd (upd h.prv ra (some tail)) la (some ra) x = h.prv x
                simp [upd, h1, h2]
        · have hlast : lastD tail (ra :: la :: lrest) = lastD la lrest := rfl
          rw [hlast]
          have hlm : lastD la lrest ∈ la :: lrest := lastD_mem la lrest
          have h1 : lastD la lrest ≠ ra := fun hc => hdisj _ hlm ra (by simp) hc
          have h2 : lastD la lrest ≠ tail :=
            fun hc => htl (hc ▸ List.mem_append.2 (Or.inl hlm))
          show upd (upd h.nxt tail (some ra)) ra (some la) (lastD la lrest) = none
          simp [upd, h1, h2, hnla]
        · intro x hxt hxm
          have h1 : x ≠ ra :=
            fun hc => hxm (hc ▸ List.mem_append.2 (Or.inr (by simp)))
          show upd (upd h.nxt tail (some ra)) ra (some la) x = h.nxt x
          simp [upd, h1, hxt]
        · intro x hxm
          have h1 : x ≠ ra :=
            fun hc => hxm (hc ▸ List.mem_append.2 (Or.inr (by simp)))
          have h2 : x ≠ la :=
            fun hc => hxm (hc ▸ List.mem_append.2 (Or.inl (by simp)))
          show upd (upd h.prv ra (some tail)) la (some ra) x = h.prv x
          simp [upd, h1, h2]
      | cons rb rrest' =>
        obtain ⟨hnrb, hprb, hdra'⟩ := (dlink_cons_iff h ra rb rrest').1 hdra
        rw [hnrb]
        have hram : ra ∉ (la :: lrest) ++ rb :: rrest' := by
          intro hc
          rcases List.mem_append.1 hc with hc | hc
          · exact hdisj ra hc ra (by simp) rfl
          · exact (List.nodup_cons.1 hndr).1 hc
        have hnd' : ((la :: lrest) ++ rb :: rrest').Nodup :=
          hnd.sublist ((List.sublist_cons_self ra (rb :: rrest')).append_left _)
        have hls' : runSeg
            { nxt := upd h.nxt tail (some ra), prv := upd h.prv ra (some tail) }
            la lrest = true := by
          rw [runSeg_congr h _ la lrest ?_ ?_]
          · exact hls
          · intro x hx
            have h2 : x ≠ tail :=
              fun hc => htl (hc ▸ List.mem_append.2 (Or.inl hx))
            show upd h.nxt tail (some ra) x = h.nxt x
            simp [upd, h2]
          · intro x hx
            have h2 : x ≠ ra :=
              fun hc => hdisj x (List.mem_cons.2 (Or.inr hx)) ra (by simp) hc
            show upd h.prv ra (some tail) x = h.prv x
            simp [upd, h2]
        have hrs' : runSeg
            { nxt := upd h.nxt tail (some ra), prv := upd h.prv ra (some tail) }
            rb rrest' = true := by
          rw [runSeg_congr h _ rb rrest' ?_ ?_]
          · rw [runSeg_iff]
            refine ⟨hdra', ?_⟩
            simpa [lastD] using hnra
          · intro x hx
            have h2 : x ≠ tail := fun hc => htl (hc ▸ List.mem_append.2
              (Or.inr (List.mem_cons.2 (Or.inr hx))))
            show upd h.nxt tail (some ra) x = h.nxt x
            simp [upd, h2]
          · intro x hx
            have h2 : x ≠ ra := fun hc => (List.nodup_cons.1 hndr).1
              (hc ▸ List.mem_cons.2 (Or.inr hx))
            show upd h.prv ra (some tail) x = h.prv x
            simp [upd, h2]
        have htl' : tail ∉ (la :: lrest) ++ rb :: rrest' := by
          intro hc
          rcases List.mem_append.1 hc with hc | hc
          · exact htl (List.mem_append.2 (Or.inl hc))
          · exact htl
              (List.mem_append.2 (Or.inr (List.mem_cons.2 (Or.inr hc))))
        obtain ⟨ih1, ih2, ih3, ih4⟩ := ih
          { nxt := upd h.nxt tail (some ra), prv := upd h.prv ra (some tail) }
          ra la rb lrest rrest' hls' hrs' hnd' hram
          (by simp only [List.length_cons] at hfuel; omega)
        refine ⟨?_, ?_, ?_, ?_⟩
        · refine (dlink_cons_iff _ tail ra _).2 ⟨?_, ?_, ih1⟩
          · rw [ih3 tail htail_ne_ra htl']
            show upd h.nxt tail (some ra) tail = some ra
            simp [upd]
          · rw [ih4 ra hram]
            show upd h.prv ra (some tail) ra = some tail
            simp [upd]
        · have hlast : lastD tail (ra :: mergeL gf (la :: lrest) (rb :: rrest')) =
              lastD ra (mergeL gf (la :: lrest) (rb :: rrest')) := rfl
          rw [hlast]
          exact ih2
        · intro x hxt hxm
          have hx_ne_ra : x ≠ ra :=
            fun hc => hxm (hc ▸ List.mem_append.2 (Or.inr (by simp)))
          have hx_nm : x ∉ (la :: lrest) ++ rb :: rrest' := by
            intro hc
            rcases List.mem_append.1 hc with hc | hc
            · exact hxm (List.mem_append.2 (Or.inl hc))
            · exact hxm
                (List.mem_append.2 (Or.inr (List.mem_cons.2 (Or.inr hc))))
          rw [ih3 x hx_ne_ra hx_nm]
          show upd h.nxt tail (some ra) x = h.nxt x
          simp [upd, hxt]
        · intro x hxm
          have hx_ne_ra : x ≠ ra :=
            fun hc => hxm (hc ▸ List.mem_append.2 (Or.inr (by simp)))
          have hx_nm : x ∉ (la :: lrest) ++ rb :: rrest' := by
            intro hc
            rcases List.mem_append.1 hc with hc | hc
            · exact hxm (List.mem_append.2 (Or.inl hc))
            · exact hxm
                (List.mem_append.2 (Or.inr (List.mem_cons.2 (Or.inr hc))))
          rw [ih4 x hx_nm]
          show upd h.prv ra (some tail) x = h.prv x
          simp [upd, hx_ne_ra]

theorem mergeL_ne_nil (gf : Nat → Nat → Bool) (a b : Nat)
    (l r : List Nat) : mergeL gf (a :: l) (b :: r) ≠ [] := by
  rw [mergeL_cons_cons]
  cases hgf : gf a b <;> simp

/-- Closed form of `mergePtr` in terms of the loop-plus-attach heap. -/
theorem mergePtr_eq (gf : Nat → Nat → Bool) (dummy fuel : Nat) (h : Heap)
    (l r : Option Nat) :
    mergePtr gf dummy fuel h l r =
      match (mergeLA gf fuel h dummy l r).nxt dummy with
      | some m =>
        ({ nxt := (mergeLA gf fuel h dummy l r).nxt,
           prv := upd (mergeLA gf fuel h dummy l r).prv m none }, some m)
      | none => (mergeLA gf fuel h dummy l r, none) := by
  simp only [mergePtr, mergeLA]
  cases (mergeAttach (mergeLoop gf fuel h dummy l r).1
      (mergeLoop gf fuel h dummy l r).2.1 (mergeLoop gf fuel h dummy l r).2.2.1
      (mergeLoop gf fuel h dummy l r).2.2.2).nxt dummy <;> rfl

/-- `TaskList._merge` on two detached runs yields a fully detached segment
holding exactly the list-level merge, and writes nothing outside
`dummy.next` and the two runs. -/
theorem mergePtr_spec (gf : Nat → Nat → Bool) (dummy fuel : Nat) (h : Heap)
    (la ra : Nat) (lrest rrest : List Nat)
    (hls : runSeg h la lrest = true)
    (hrs : runSeg h ra rrest = true)
    (hnd : ((la :: lrest) ++ ra :: rrest).Nodup)
    (hdm : dummy ∉ (la :: lrest) ++ ra :: rrest)
    (hfuel : lrest.length + rrest.length + 1 ≤ fuel) :
    isSeg (mergePtr gf dummy fuel h (some la) (some ra)).1
        (mergePtr gf dummy fuel h (some la) (some ra)).2
        (mergeL gf (la :: lrest) (ra :: rrest)) = true ∧
    (∀ x, x ≠ dummy → x ∉ (la :: lrest) ++ ra :: rrest →
      (mergePtr gf dummy fuel h (some la) (some ra)).1.nxt x = h.nxt x) ∧
    (∀ x, x ∉ (la :: lrest) ++ ra :: rrest →
      (mergePtr gf dummy fuel h (some la) (some ra)).1.prv x = h.prv x) := by
  obtain ⟨hdk, hlk, hfn, hfp⟩ :=
    mergeLA_spec gf fuel h dummy la ra lrest rrest hls hrs hnd hdm hfuel
  have hmnd : (mergeL gf (la :: lrest) (ra :: rrest)).Nodup :=
    ((mergeL_perm gf _ _).nodup_iff).2 hnd
  have hmmem : ∀ x ∈ mergeL gf (la :: lrest) (ra :: rrest),
      x ∈ (la :: lrest) ++ ra :: rrest :=
    fun x hx => (mergeL_perm gf _ _).mem_iff.1 hx
  cases hmerge : mergeL gf (la :: lrest) (ra :: rrest) with
  | nil => exact absurd hmerge (mergeL_ne_nil gf la ra lrest rrest)
  | cons mh m' =>
    rw [hmerge] at hdk hlk hmnd hmmem
    obtain ⟨hn_dummy, hp_mh, hdk'⟩ :=
      (dlink_cons_iff _ dummy mh m').1 hdk
    have hpe : mergePtr gf dummy fuel h (some la) (some ra) =
        ({ nxt := (mergeLA gf fuel h dummy (some la) (some ra)).nxt,
           prv := upd (mergeLA gf fuel h dummy (some la) (some ra)).prv mh none },
         some mh) := by
      rw [mergePtr_eq, hn_dummy]
    rw [hpe]
    dsimp only
    have hmh_mem : mh ∈ (la :: lrest) ++ ra :: rrest := hmmem mh (by simp)
    have hmh_nm' : mh ∉ m' := (List.nodup_cons.1 hmnd).1
    refine ⟨?_, ?_, ?_⟩
    · refine (isSeg_cons_iff _ (some mh) mh m').2 ⟨rfl, ?_, ?_, ?_⟩
      · show upd (mergeLA gf fuel h dummy (some la) (some ra)).prv mh none mh = none
        rw [upd_same]
      · rw [dlink_congr (mergeLA gf fuel h dummy (some la) (some ra))
          { nxt := (mergeLA gf fuel h dummy (some la) (some ra)).nxt,
            prv := upd (mergeLA gf fuel h dummy (some la) (some ra)).prv mh none }
          m' mh (fun x _ => rfl) ?_]
        · exact hdk'
        · intro x hx
          show upd (mergeLA gf fuel h dummy (some la) (some ra)).prv mh none x =
            (mergeLA gf fuel h dummy (some la) (some ra)).prv x
          exact upd_ne _ _ _ x (fun hc => hmh_nm' (hc ▸ hx))
      · show (mergeLA gf fuel h dummy (some la) (some ra)).nxt (lastD mh m') = none
        have : lastD dummy (mh :: m') = lastD mh m' := rfl
        rw [← this]
        exact hlk
    · intro x hxd hxm
      show (mergeLA gf fuel h dummy (some la) (some ra)).nxt x = h.nxt x
      exact hfn x hxd hxm
    · intro x hxm
      show upd (mergeLA gf fuel h dummy (some la) (some ra)).prv mh none x = h.prv x
      rw [upd_ne _ _ _ x (fun hc => hxm (hc ▸ hmh_mem))]
      exact hfp x hxm

/-- `TaskList.merge_sort` on a detached duplicate-free segment produces a
detached segment holding exactly the list-level `mergeSortL` result (same
fuel), and writes nothing outside the segment's nodes and `dummy.next`. -/
theorem mergeSortPtr_spec (gf : Nat → Nat → Bool) (dummy : Nat) :
    ∀ (fuel : Nat) (h : Heap) (ro : Option Nat) (ids : List Nat),
      isSeg h ro ids = true → ids.Nodup → dummy ∉ ids →
      ids.length ≤ fuel →
      isSeg (mergeSortPtr gf dummy fuel h ro).1
          (mergeSortPtr gf dummy fuel h ro).2 (mergeSortL gf fuel ids) = true ∧
      (∀ x, x ≠ dummy → x ∉ ids →
        (mergeSortPtr gf dummy fuel h ro).1.nxt x = h.nxt x) ∧
      (∀ x, x ∉ ids →
        (mergeSortPtr gf dummy fuel h ro).1.prv x = h.prv x) := by
  intro fuel
  induction fuel with
  | zero =>
    intro h ro ids hseg hnd hdm hfuel
    have hids : ids = [] := List.length_eq_zero.1 (Nat.le_zero.1 hfuel)
    subst hids
    exact ⟨hseg, fun x _ _ => rfl, fun x _ => rfl⟩
  | succ fuel ih =>
    intro h ro ids hseg hnd hdm hfuel
    cases ro with
    | none =>
      cases ids with
      | nil => exact ⟨hseg, fun x _ _ => rfl, fun x _ => rfl⟩
      | cons b l =>
        obtain ⟨hr, -, -, -⟩ := (isSeg_cons_iff h none b l).1 hseg
        exact absurd hr (by simp)
    | some hd =>
      cases ids with
      | nil =>
        rw [isSeg_nil_iff] at hseg
        exact absurd hseg (by simp)
      | cons b rest =>
        obtain ⟨hr, hp0, hdl, hnl⟩ := (isSeg_cons_iff h (some hd) b rest).1 hseg
        injection hr with hr
        subst hr
        cases rest with
        | nil =>
          simp only [lastD] at hnl
          have hres : mergeSortPtr gf dummy (fuel + 1) h (some hd) =
              (h, some hd) := by
            simp only [mergeSortPtr, hnl]
          rw [hres]
          exact ⟨hseg, fun x _ _ => rfl, fun x _ => rfl⟩
        | cons b2 t =>
          obtain ⟨hnxt, hprv2, hdl'⟩ := (dlink_cons_iff h hd b2 t).1 hdl
          have hstep : mergeSortPtr gf dummy (fuel + 1) h (some hd) =
              mergePtr gf dummy (fuel + 1)
                (mergeSortPtr gf dummy fuel
                  (mergeSortPtr gf dummy fuel (splitPtr h (fuel + 1) hd).1
                    (some (splitPtr h (fuel + 1) hd).2.1)).1
                  (splitPtr h (fuel + 1) hd).2.2).1
                (mergeSortPtr gf dummy fuel (splitPtr h (fuel + 1) hd).1
                  (some (splitPtr h (fuel + 1) hd).2.1)).2
                (mergeSortPtr gf dummy fuel
                  (mergeSortPtr gf dummy fuel (splitPtr h (fuel + 1) hd).1
                    (some (splitPtr h (fuel + 1) hd).2.1)).1
                  (splitPtr h (fuel + 1) hd).2.2).2 := by
            simp only [mergeSortPtr, hnxt]
          obtain ⟨hsp1, hspL, hspR, hspFN, hspFP⟩ :=
            splitPtr_spec h hd (b2 :: t) (fuel + 1) hseg hnd
              (by simp only [List.length_cons] at hfuel ⊢; omega)
          -- the left half
          have hndL : ((hd :: b2 :: t).take ((b2 :: t).length / 2 + 1)).Nodup :=
            hnd.sublist (List.take_sublist _ _)
          have hdmL : dummy ∉ (hd :: b2 :: t).take ((b2 :: t).length / 2 + 1) :=
            fun hc => hdm (List.mem_of_mem_take hc)
          have hlenL : ((hd :: b2 :: t).take ((b2 :: t).length / 2 + 1)).length
              ≤ fuel := by
            simp only [List.length_take, List.length_cons]
            simp only [List.length_cons] at hfuel
            omega
          have hsegL : isSeg (splitPtr h (fuel + 1) hd).1
              (some (splitPtr h (fuel + 1) hd).2.1)
              ((hd :: b2 :: t).take ((b2 :: t).length / 2 + 1)) = true := by
            rw [hsp1]
            exact hspL
          obtain ⟨hL1, hLfn, hLfp⟩ := ih (splitPtr h (fuel + 1) hd).1
            (some (splitPtr h (fuel + 1) hd).2.1)
            ((hd :: b2 :: t).take ((b2 :: t).length / 2 + 1))
            hsegL hndL hdmL hlenL
          -- disjointness of the two halves
          have hdisjTD : ∀ x ∈ (hd :: b2 :: t).drop ((b2 :: t).length / 2 + 1),
              x ∉ (hd :: b2 :: t).take ((b2 :: t).length / 2 + 1) := by
            intro x hx hx'
            have hnd2 : ((hd :: b2 :: t).take ((b2 :: t).length / 2 + 1) ++
                (hd :: b2 :: t).drop ((b2 :: t).length / 2 + 1)).Nodup := by
              rw [List.take_append_drop]
              exact hnd
            exact (List.disjoint_of_nodup_append hnd2) hx' hx
          -- the right half survives the left recursive sort
          have hsegR : isSeg (mergeSortPtr gf dummy fuel
                (splitPtr h (fuel + 1) hd).1
                (some (splitPtr h (fuel + 1) hd).2.1)).1
              (splitPtr h (fuel + 1) hd).2.2
              ((hd :: b2 :: t).drop ((b2 :: t).length / 2 + 1)) = true := by
            rw [isSeg_congr (splitPtr h (fuel + 1) hd).1 _ _ _ ?_ ?_]
            · exact hspR
            · intro x hx
              exact hLfn x (fun hc => hdm (hc ▸ List.mem_of_mem_drop hx))
                (hdisjTD x hx)
            · intro x hx
              exact hLfp x (hdisjTD x hx)
          have hndR : ((hd :: b2 :: t).drop ((b2 :: t).length / 2 + 1)).Nodup :=
            hnd.sublist (List.drop_sublist _ _)
          have hdmR : dummy ∉ (hd :: b2 :: t).drop ((b2 :: t).length / 2 + 1) :=
            fun hc => hdm (List.mem_of_mem_drop hc)
          have hlenR : ((hd :: b2 :: t).drop ((b2 :: t).length / 2 + 1)).length
              ≤ fuel := by
            simp only [List.length_drop, List.length_cons]
            simp only [List.length_cons] at hfuel
            omega
          obtain ⟨hR1, hRfn, hRfp⟩ := ih (mergeSortPtr gf dummy fuel
              (splitPtr h (fuel + 1) hd).1
              (some (splitPtr h (fuel + 1) hd).2.1)).1
            (splitPtr h (fuel + 1) hd).2.2
            ((hd :: b2 :: t).drop ((b2 :: t).length / 2 + 1))
            hsegR hndR hdmR hlenR
          -- permutation bookkeeping for the two sorted halves
          have hpermL := mergeSortL_perm gf fuel
            ((hd :: b2 :: t).take ((b2 :: t).length / 2 + 1)) hlenL
          have hpermR := mergeSortL_perm gf fuel
            ((hd :: b2 :: t).drop ((b2 :: t).length / 2 + 1)) hlenR
          -- the sorted left half survives the right recursive sort
          have hsegL2 : isSeg (mergeSortPtr gf dummy fuel
                (mergeSortPtr gf dummy fuel (splitPtr h (fuel + 1) hd).1
                  (some (splitPtr h (fuel + 1) hd).2.1)).1
                (splitPtr h (fuel + 1) hd).2.2).1
              (mergeSortPtr gf dummy fuel (splitPtr h (fuel + 1) hd).1
                (some (splitPtr h (fuel + 1) hd).2.1)).2
              (mergeSortL gf fuel
                ((hd :: b2 :: t).take ((b2 :: t).length / 2 + 1))) = true := by
            rw [isSeg_congr (mergeSortPtr gf dummy fuel
                (splitPtr h (fuel + 1) hd).1
                (some (splitPtr h (fuel + 1) hd).2.1)).1 _ _ _ ?_ ?_]
            · exact hL1
            · intro x hx
              have hxt := hpermL.mem_iff.1 hx
              exact hRfn x (fun hc => hdmL (hc ▸ hxt))
                (fun hc => hdisjTD x hc hxt)
            · intro x hx
              have hxt := hpermL.mem_iff.1 hx
              exact hRfp x (fun hc => hdisjTD x hc hxt)
          rw [hstep]
          -- non-emptiness of the sorted halves
          cases hmt : mergeSortL gf fuel
              ((hd :: b2 :: t).take ((b2 :: t).length / 2 + 1)) with
          | nil =>
            exfalso
            have := hpermL.length_eq
            rw [hmt] at this
            simp only [List.length_nil, List.length_take, List.length_cons]
              at this
            omega
          | cons la lrest =>
          cases hmd : mergeSortL gf fuel
              ((hd :: b2 :: t).drop ((b2 :: t).length / 2 + 1)) with
          | nil =>
            exfalso
            have := hpermR.length_eq
            rw [hmd] at this
            simp only [List.length_nil, List.length_drop, List.length_cons]
              at this
            omega
          | cons ra rrest =>
          rw [hmt] at hsegL2 hpermL
          rw [hmd] at hR1 hpermR
          obtain ⟨hLroot, -, -, -⟩ :=
            (isSeg_cons_iff _ _ la lrest).1 hsegL2
          obtain ⟨hRroot, -, -, -⟩ :=
            (isSeg_cons_iff _ _ ra rrest).1 hR1
          have hrunL : runSeg (mergeSortPtr gf dummy fuel
                (mergeSortPtr gf dummy fuel (splitPtr h (fuel + 1) hd).1
                  (some (splitPtr h (fuel + 1) hd).2.1)).1
                (splitPtr h (fuel + 1) hd).2.2).1 la lrest = true := by
            refine isSeg_some_runSeg _ la lrest ?_
            rw [← hLroot]
            exact hsegL2
          have hrunR : runSeg (mergeSortPtr gf dummy fuel
                (mergeSortPtr gf dummy fuel (splitPtr h (fuel + 1) hd).1
                  (some (splitPtr h (fuel + 1) hd).2.1)).1
                (splitPtr h (fuel + 1) hd).2.2).1 ra rrest = true := by
            refine isSeg_some_runSeg _ ra rrest ?_
            rw [← hRroot]
            exact hR1
          have hpermBoth : List.Perm ((la :: lrest) ++ ra :: rrest)
              (hd :: b2 :: t) := by
            have := List.Perm.append hpermL hpermR
            rwa [List.take_append_drop] at this
          have hndM : ((la :: lrest) ++ ra :: rrest).Nodup :=
            hpermBoth.nodup_iff.2 hnd
          have hdmM : dummy ∉ (la :: lrest) ++ ra :: rrest :=
            fun hc => hdm (hpermBoth.mem_iff.1 hc)
          have hfuelM : lrest.length + rrest.length + 1 ≤ fuel + 1 := by
            have hlen := hpermBoth.length_eq
            simp only [List.length_append, List.length_cons] at hlen
            simp only [List.length_cons] at hfuel
            omega
          obtain ⟨hM1, hMfn, hMfp⟩ := mergePtr_spec gf dummy (fuel + 1)
            (mergeSortPtr gf dummy fuel
              (mergeSortPtr gf dummy fuel (splitPtr h (fuel + 1) hd).1
                (some (splitPtr h (fuel + 1) hd).2.1)).1
              (splitPtr h (fuel + 1) hd).2.2).1
            la ra lrest rrest hrunL hrunR hndM hdmM hfuelM
          -- identify the list-level sort result
          have hkk : (b2 :: t).length / 2 + 1 = (t.length + 3) / 2 := by
            simp only [List.length_cons]
            omega
          have hsortL : mergeSortL gf (fuel + 1) (hd :: b2 :: t) =
              mergeL gf (la :: lrest) (ra :: rrest) := by
            rw [mergeSortL_cons₂, ← hkk, hmt, hmd]
          rw [hsortL, hLroot, hRroot]
          refine ⟨hM1, ?_, ?_⟩
          · intro x hxd hxm
            rw [hMfn x hxd (fun hc => hxm (hpermBoth.mem_iff.1 hc))]
            rw [hRfn x hxd (fun hc => hxm (List.mem_of_mem_drop hc))]
            rw [hLfn x hxd (fun hc => hxm (List.mem_of_mem_take hc))]
            exact hspFN x hxm
          · intro x hxm
            rw [hMfp x (fun hc => hxm (hpermBoth.mem_iff.1 hc))]
            rw [hRfp x (fun hc => hxm (List.mem_of_mem_drop hc))]
            rw [hLfp x (fun hc => hxm (List.mem_of_mem_take hc))]
            exact hspFP x hxm

/-- A chain suffix is itself a chain. -/
theorem nchain_suffix (h : Heap) :
    ∀ (pre : List Nat) (a cur : Nat) (post : List Nat),
      nchain h a (pre ++ cur :: post) = true → nchain h cur post = true := by
  intro pre
  induction pre with
  | nil =>
    intro a cur post hc
    exact ((nchain_cons_iff h a cur post).1 hc).2
  | cons p pre' ih =>
    intro a cur post hc
    exact ih p cur post ((nchain_cons_iff h a p _).1 hc).2

/-- Reading the `next` of any node of a detached segment gives the next
node of the sequence (or null at the tail). -/
theorem isSeg_nxt_at (h : Heap) (r : Option Nat) :
    ∀ (pre : List Nat) (cur : Nat) (post : List Nat),
      isSeg h r (pre ++ cur :: post) = true → h.nxt cur = post.head? := by
  intro pre cur post hseg
  cases pre with
  | nil =>
    obtain ⟨-, -, hdl, hnl⟩ := (isSeg_cons_iff h r cur post).1 hseg
    cases post with
    | nil => simpa [lastD] using hnl
    | cons w v' => simp [((dlink_cons_iff h cur w v').1 hdl).1]
  | cons p0 pre' =>
    rw [List.cons_append] at hseg
    obtain ⟨-, hp0, hdl, hnl⟩ :=
      (isSeg_cons_iff h r p0 (pre' ++ cur :: post)).1 hseg
    have hnc : nchain h cur post = true :=
      nchain_suffix h pre' p0 cur post
        (nchain_of_dlink h (pre' ++ cur :: post) p0 hdl)
    cases post with
    | nil =>
      have hl : lastD p0 (pre' ++ [cur]) = cur := by
        rw [lastD_append]
        rfl
      rw [hl] at hnl
      simpa using hnl
    | cons w v' => simp [((nchain_cons_iff h cur w v').1 hnc).1]

/-- `TaskList.add_task_node` of a fresh node appends it to the sequence and
increments `count`. -/
theorem add_task_node_spec (h : Heap) (st : TaskList) (fuel newId : Nat)
    (ids : List Nat) (hinv : inv h st ids) (hfresh : newId ∉ ids)
    (hn0 : h.nxt newId = none) (hp0 : h.prv newId = none)
    (hfuel : ids.length ≤ fuel) :
    inv (add_task_node h st fuel newId).1 (add_task_node h st fuel newId).2
      (ids ++ [newId]) := by
  obtain ⟨hseg, hnd, hcnt⟩ := hinv
  cases ids with
  | nil =>
    have hhead : st.head = none := (isSeg_nil_iff h st.head).1 hseg
    have hres : add_task_node h st fuel newId =
        (h, { head := some newId, count := st.count + 1 }) := by
      simp only [add_task_node, hhead]
    rw [hres]
    refine ⟨?_, by simp, by simp [hcnt]⟩
    exact (isSeg_cons_iff h (some newId) newId []).2
      ⟨rfl, hp0, rfl, by simpa [lastD] using hn0⟩
  | cons a rest =>
    obtain ⟨hhead, hpa, hdl, hnl⟩ := (isSeg_cons_iff h st.head a rest).1 hseg
    have hct : findTail h fuel a = lastD a rest :=
      findTail_spec h rest a fuel (nchain_of_dlink h rest a hdl) hnl
        (by simp only [List.length_cons] at hfuel; omega)
    have hres : add_task_node h st fuel newId =
        ({ nxt := upd h.nxt (lastD a rest) (some newId),
           prv := upd h.prv newId (some (lastD a rest)) },
         { st with count := st.count + 1 }) := by
      simp only [add_task_node, hhead, hct]
    rw [hres]
    have hlm : lastD a rest ∈ a :: rest := lastD_mem a rest
    have hlast_ne_new : lastD a rest ≠ newId := fun hc => hfresh (hc ▸ hlm)
    have hnew_ne_a : newId ≠ a := fun hc => hfresh (by simp [hc])
    refine ⟨?_, ?_, ?_⟩
    · have hgoal : (a :: rest) ++ [newId] = a :: (rest ++ [newId]) := rfl
      rw [hgoal]
      refine (isSeg_cons_iff _ st.head a (rest ++ [newId])).2
        ⟨hhead, ?_, ?_, ?_⟩
      · show upd h.prv newId (some (lastD a rest)) a = none
        rw [upd_ne _ _ _ a (Ne.symm hnew_ne_a)]
        exact hpa
      · rw [dlink_append, Bool.and_eq_true]
        refine ⟨?_, ?_⟩
        · rw [dlink_congr h _ rest a ?_ ?_]
          · exact hdl
          · intro x hx
            show upd h.nxt (lastD a rest) (some newId) x = h.nxt x
            exact upd_ne _ _ _ x
              (fun hc => lastD_not_mem_dropLast a rest hnd (hc ▸ hx))
          · intro x hx
            show upd h.prv newId (some (lastD a rest)) x = h.prv x
            exact upd_ne _ _ _ x
              (fun hc => hfresh (hc ▸ List.mem_cons.2 (Or.inr hx)))
        · refine (dlink_cons_iff _ (lastD a rest) newId []).2 ⟨?_, ?_, rfl⟩
          · show upd h.nxt (lastD a rest) (some newId) (lastD a rest) =
              some newId
            exact upd_same _ _ _
          · show upd h.prv newId (some (lastD a rest)) newId =
              some (lastD a rest)
            exact upd_same _ _ _
      · have hl2 : lastD a (rest ++ [newId]) = newId := by
          rw [lastD_append]
          rfl
        rw [hl2]
        show upd h.nxt (lastD a rest) (some newId) newId = none
        rw [upd_ne _ _ _ newId (Ne.symm hlast_ne_new)]
        exact hn0
    · rw [List.nodup_append]
      exact ⟨hnd, List.nodup_singleton newId,
        fun x hx hx' => hfresh ((List.mem_singleton.1 hx') ▸ hx)⟩
    · simp only [List.length_append, List.length_singleton]
      rw [hcnt]
      push_cast
      ring

/-- `TaskList.delete_task_node` on a node of the container removes exactly
that node, relinking its neighbours, and decrements `count`. -/
theorem delete_task_node_spec (h : Heap) (st : TaskList) (node : Nat)
    (u v : List Nat)
    (hseg : isSeg h st.head (u ++ node :: v) = true)
    (hnd : (u ++ node :: v).Nodup) :
    isSeg (delete_task_node h st node).1 (delete_task_node h st node).2.head
        (u ++ v) = true ∧
    (delete_task_node h st node).2.count = st.count - 1 := by
  cases u with
  | nil =>
    obtain ⟨hhead, hpn, hdl, hnl⟩ :=
      (isSeg_cons_iff h st.head node v).1 hseg
    cases v with
    | nil =>
      simp only [lastD] at hnl
      have hres : delete_task_node h st node =
          (h, { head := none, count := st.count - 1 }) := by
        simp only [delete_task_node, hhead, hnl]
        simp
      rw [hres]
      exact ⟨rfl, rfl⟩
    | cons w v' =>
      obtain ⟨hnw, hpw, hdw⟩ := (dlink_cons_iff h node w v').1 hdl
      have hndv := hnd.of_cons
      have hw_nm : w ∉ v' := (List.nodup_cons.1 hndv).1
      have hres : delete_task_node h st node =
          ({ nxt := h.nxt, prv := upd h.prv w none },
           { head := some w, count := st.count - 1 }) := by
        simp only [delete_task_node, hhead, hnw]
        simp
      rw [hres]
      dsimp only
      refine ⟨?_, rfl⟩
      refine (isSeg_cons_iff _ (some w) w v').2 ⟨rfl, ?_, ?_, ?_⟩
      · show upd h.prv w none w = none
        exact upd_same _ _ _
      · rw [dlink_congr h { nxt := h.nxt, prv := upd h.prv w none } v' w
          (fun x _ => rfl) ?_]
        · exact hdw
        · intro x hx
          show upd h.prv w none x = h.prv x
          exact upd_ne _ _ _ x (fun hc => hw_nm (hc ▸ hx))
      · show h.nxt (lastD w v') = none
        simpa [lastD] using hnl
  | cons u0 u' =>
    rw [List.cons_append] at hseg hnd
    obtain ⟨hhead, hpu0, hdl, hnl⟩ :=
      (isSeg_cons_iff h st.head u0 (u' ++ node :: v)).1 hseg
    have hnd0 := List.nodup_cons.1 hnd
    have hnode_mem : node ∈ u' ++ node :: v :=
      List.mem_append.2 (Or.inr (by simp))
    have hu0_ne : u0 ≠ node := fun hc => hnd0.1 (hc ▸ hnode_mem)
    have hcond : (st.head == some node) = false := by
      rw [hhead]
      simp [hu0_ne]
    rw [dlink_append, Bool.and_eq_true] at hdl
    obtain ⟨hdu, hdnv⟩ := hdl
    obtain ⟨hpnxt, hpprv, hdv⟩ :=
      (dlink_cons_iff h (lastD u0 u') node v).1 hdnv
    have hlm : lastD u0 u' ∈ u0 :: u' := lastD_mem u0 u'
    have hdisj : ∀ x ∈ u0 :: u', ∀ y ∈ node :: v, x ≠ y := by
      intro x hx y hy hc
      have hndapp : ((u0 :: u') ++ node :: v).Nodup := by
        rw [List.cons_append]
        exact hnd
      exact (List.disjoint_of_nodup_append hndapp) hx (hc ▸ hy)
    have hp_ne_node : lastD u0 u' ≠ node := hdisj _ hlm node (by simp)
    cases v with
    | nil =>
      have hnodelast : lastD u0 (u' ++ [node]) = node := by
        rw [lastD_append]
        rfl
      rw [hnodelast] at hnl
      have hres : delete_task_node h st node =
          ({ nxt := upd h.nxt (lastD u0 u') none, prv := h.prv },
           { st with count := st.count - 1 }) := by
        simp only [delete_task_node, hcond, Bool.false_eq_true, if_false,
          hpprv, hnl,
          upd_ne h.nxt (lastD u0 u') none node (Ne.symm hp_ne_node)]
      rw [hres]
      dsimp only
      refine ⟨?_, rfl⟩
      have hgoal : (u0 :: u') ++ ([] : List Nat) = u0 :: u' := by simp
      rw [hgoal]
      refine (isSeg_cons_iff _ st.head u0 u').2 ⟨hhead, hpu0, ?_, ?_⟩
      · rw [dlink_congr h { nxt := upd h.nxt (lastD u0 u') none, prv := h.prv }
          u' u0 ?_ (fun x _ => rfl)]
        · exact hdu
        · intro x hx
          show upd h.nxt (lastD u0 u') none x = h.nxt x
          exact upd_ne _ _ _ x
            (fun hc => lastD_not_mem_dropLast u0 u' (hnd.sublist
              (by refine List.cons_sublist_cons.2 ?_
                  exact List.sublist_append_left u' [node])) (hc ▸ hx))
      · show upd h.nxt (lastD u0 u') none (lastD u0 u') = none
        rw [upd_same]
    | cons w v' =>
      obtain ⟨hnw, hpw, hdw⟩ := (dlink_cons_iff h node w v').1 hdv
      have hw_mem : w ∈ node :: w :: v' := by simp
      have hp_ne_w : lastD u0 u' ≠ w := hdisj _ hlm w hw_mem
      have hu0_ne_w : u0 ≠ w := hdisj u0 (by simp) w hw_mem
      have hndnv : (node :: w :: v').Nodup := by
        have hnd' : ((u0 :: u') ++ node :: w :: v').Nodup := by
          rw [List.cons_append]
          exact hnd
        exact hnd'.of_append_right
      have hw_nv' : w ∉ v' :=
        (List.nodup_cons.1 (List.nodup_cons.1 hndnv).2).1
      have hres : delete_task_node h st node =
          ({ nxt := upd h.nxt (lastD u0 u') (some w),
             prv := upd h.prv w (some (lastD u0 u')) },
           { st with count := st.count - 1 }) := by
        simp only [delete_task_node, hcond, Bool.false_eq_true, if_false,
          hpprv, hnw,
          upd_ne h.nxt (lastD u0 u') (some w) node (Ne.symm hp_ne_node)]
      rw [hres]
      dsimp only
      refine ⟨?_, rfl⟩
      have hgoal : (u0 :: u') ++ w :: v' = u0 :: (u' ++ w :: v') := rfl
      rw [hgoal]
      refine (isSeg_cons_iff _ st.head u0 (u' ++ w :: v')).2
        ⟨hhead, ?_, ?_, ?_⟩
      · show upd h.prv w (some (lastD u0 u')) u0 = none
        rw [upd_ne _ _ _ u0 hu0_ne_w]
        exact hpu0
      · rw [dlink_append, Bool.and_eq_true]
        refine ⟨?_, ?_⟩
        · rw [dlink_congr h
            { nxt := upd h.nxt (lastD u0 u') (some w),
              prv := upd h.prv w (some (lastD u0 u')) } u' u0 ?_ ?_]
          · exact hdu
          · intro x hx
            show upd h.nxt (lastD u0 u') (some w) x = h.nxt x
            exact upd_ne _ _ _ x
              (fun hc => lastD_not_mem_dropLast u0 u' (hnd.sublist
                (by refine List.cons_sublist_cons.2 ?_
                    exact List.sublist_append_left u' (node :: w :: v')))
                (hc ▸ hx))
          · intro x hx
            show upd h.prv w (some (lastD u0 u')) x = h.prv x
            exact upd_ne _ _ _ x
              (fun hc => hdisj x (List.mem_cons.2 (Or.inr hx)) w hw_mem hc)
        · refine (dlink_cons_iff _ (lastD u0 u') w v').2 ⟨?_, ?_, ?_⟩
          · show upd h.nxt (lastD u0 u') (some w) (lastD u0 u') = some w
            rw [upd_same]
          · show upd h.prv w (some (lastD u0 u')) w = some (lastD u0 u')
            rw [upd_same]
          · rw [dlink_congr h
              { nxt := upd h.nxt (lastD u0 u') (some w),
                prv := upd h.prv w (some (lastD u0 u')) } v' w ?_ ?_]
            · exact hdw
            · intro x hx
              have hxm : x ∈ node :: w :: v' :=
                List.mem_cons.2 (Or.inr (List.mem_of_mem_dropLast hx))
              show upd h.nxt (lastD u0 u') (some w) x = h.nxt x
              exact upd_ne _ _ _ x
                (fun hc => hdisj _ hlm x hxm hc.symm)
            · intro x hx
              show upd h.prv w (some (lastD u0 u')) x = h.prv x
              exact upd_ne _ _ _ x (fun hc => hw_nv' (hc ▸ hx))
      · have hl2 : lastD u0 (u' ++ w :: v') = lastD w v' := by
          rw [lastD_append]
          rfl
        have hl3 : lastD u0 (u' ++ node :: w :: v') = lastD w v' := by
          rw [lastD_append]
          rfl
        rw [hl2]
        have hlw_mem : lastD w v' ∈ node :: w :: v' :=
          List.mem_cons.2 (Or.inr (lastD_mem w v'))
        show upd h.nxt (lastD u0 u') (some w) (lastD w v') = none
        rw [upd_ne _ _ _ _ (fun hc => hdisj _ hlm _ hlw_mem hc.symm)]
        rw [hl3] at hnl
        exact hnl

/-- The sweep loop removes exactly the tombstoned (`status == "deleted"`)
nodes of the unprocessed suffix, keeps everything else in order, updates
`count` accordingly, and does nothing at all when nothing is tombstoned. -/
theorem sweepLoop_spec (val : Nat → Task) :
    ∀ (rest pre : List Nat) (h : Heap) (st : TaskList) (fuel : Nat),
      isSeg h st.head (pre ++ rest) = true →
      (pre ++ rest).Nodup →
      st.count = (pre ++ rest).length →
      rest.length ≤ fuel →
      isSeg (sweepLoop val fuel h st rest.head?).1
          (sweepLoop val fuel h st rest.head?).2.head
          (pre ++ rest.filter (fun i => !decide ((val i).status = "deleted")))
          = true ∧
      (sweepLoop val fuel h st rest.head?).2.count =
        ((pre ++ rest.filter
          (fun i => !decide ((val i).status = "deleted"))).length : Int) ∧
      ((∀ i ∈ rest, (val i).status ≠ "deleted") →
        sweepLoop val fuel h st rest.head? = (h, st)) := by
  intro rest
  induction rest with
  | nil =>
    intro pre h st fuel hseg hnd hcnt _
    have hres : sweepLoop val fuel h st (([] : List Nat)).head? = (h, st) := by
      cases fuel <;> rfl
    rw [hres]
    simp only [List.filter_nil, List.append_nil]
    simp only [List.append_nil] at hseg hcnt
    exact ⟨hseg, hcnt, by intros; trivial⟩
  | cons cur rest' ih =>
    intro pre h st fuel hseg hnd hcnt hfuel
    cases fuel with
    | zero => simp at hfuel
    | succ fuel =>
      have hnn : h.nxt cur = rest'.head? := isSeg_nxt_at h st.head pre cur rest' hseg
      by_cases hdel : (val cur).status = "deleted"
      · have hres : sweepLoop val (fuel + 1) h st (cur :: rest').head? =
            sweepLoop val fuel (delete_task_node h st cur).1
              (delete_task_node h st cur).2 rest'.head? := by
          simp only [List.head?_cons, sweepLoop, hnn, if_pos hdel]
        rw [hres]
        obtain ⟨hseg', hcnt'⟩ := delete_task_node_spec h st cur pre rest' hseg hnd
        have hnd' : (pre ++ rest').Nodup :=
          hnd.sublist ((List.sublist_cons_self cur rest').append_left pre)
        have hcnt'' : (delete_task_node h st cur).2.count =
            ((pre ++ rest').length : Int) := by
          rw [hcnt', hcnt]
          simp only [List.length_append, List.length_cons]
          push_cast
          ring
        obtain ⟨g1, g2, -⟩ := ih pre (delete_task_node h st cur).1
          (delete_task_node h st cur).2 fuel hseg' hnd' hcnt''
          (by simp only [List.length_cons] at hfuel; omega)
        have hfilter : (cur :: rest').filter
            (fun i => !decide ((val i).status = "deleted")) =
            rest'.filter (fun i => !decide ((val i).status = "deleted")) := by
          simp [List.filter_cons, hdel]
        rw [hfilter]
        exact ⟨g1, g2, fun hall => absurd hdel (hall cur (by simp))⟩
      · have hres : sweepLoop val (fuel + 1) h st (cur :: rest').head? =
            sweepLoop val fuel h st rest'.head? := by
          simp only [List.head?_cons, sweepLoop, hnn, if_neg hdel]
        rw [hres]
        have hassoc : pre ++ cur :: rest' = (pre ++ [cur]) ++ rest' := by
          simp
        rw [hassoc] at hseg hnd hcnt
        obtain ⟨g1, g2, g3⟩ := ih (pre ++ [cur]) h st fuel hseg hnd hcnt
          (by simp only [List.length_cons] at hfuel; omega)
        have hfilter : pre ++ (cur :: rest').filter
            (fun i => !decide ((val i).status = "deleted")) =
            (pre ++ [cur]) ++ rest'.filter
              (fun i => !decide ((val i).status = "deleted")) := by
          simp [List.filter_cons, hdel]
        rw [hfilter]
        exact ⟨g1, g2, fun hall => g3 (fun i hi => hall i (by simp [hi]))⟩

/-- `TaskList.sort_by`: the container afterwards holds exactly the
list-level merge-sort of its node sequence, with `count` recomputed to the
(unchanged) length. -/
theorem sort_by_spec (val : Nat → Task) (key : SortKey) (dummy fuel : Nat)
    (h : Heap) (st : TaskList) (ids : List Nat)
    (hinv : inv h st ids) (hdm : dummy ∉ ids) (hfuel : ids.length ≤ fuel) :
    isSeg (sort_by val key dummy fuel h st).1
        (sort_by val key dummy fuel h st).2.head
        (mergeSortL (goesFirst val key) fuel ids) = true ∧
    (mergeSortL (goesFirst val key) fuel ids).Nodup ∧
    (sort_by val key dummy fuel h st).2.count =
      ((mergeSortL (goesFirst val key) fuel ids).length : Int) ∧
    (mergeSortL (goesFirst val key) fuel ids).length = ids.length := by
  obtain ⟨hseg, hnd, hcnt⟩ := hinv
  obtain ⟨hs1, -, -⟩ :=
    mergeSortPtr_spec (goesFirst val key) dummy fuel h st.head ids hseg hnd
      hdm hfuel
  have hperm := mergeSortL_perm (goesFirst val key) fuel ids hfuel
  have hlen : (mergeSortL (goesFirst val key) fuel ids).length = ids.length :=
    hperm.length_eq
  have hcount : countFrom (mergeSortPtr (goesFirst val key) dummy fuel h st.head).1
      fuel (mergeSortPtr (goesFirst val key) dummy fuel h st.head).2 =
      (mergeSortL (goesFirst val key) fuel ids).length :=
    countFrom_spec _ _ _ fuel hs1 (by rw [hlen]; exact hfuel)
  refine ⟨hs1, hperm.nodup_iff.2 hnd, ?_, hlen⟩
  show ((countFrom (mergeSortPtr (goesFirst val key) dummy fuel h st.head).1
      fuel (mergeSortPtr (goesFirst val key) dummy fuel h st.head).2 : Nat) : Int) = _
  rw [hcount]

/-! ### Properties of the two comparison keys -/

theorem goesFirst_total (val : Nat → Task) (key : SortKey) (a b : Nat) :
    goesFirst val key a b = true ∨ goesFirst val key b a = true := by
  cases key with
  | priority =>
    simp only [goesFirst, decide_eq_true_eq]
    omega
  | due_date =>
    simp only [goesFirst, strLe]
    exact strLeB_total _ _

theorem goesFirst_trans (val : Nat → Task) (key : SortKey) (a b c : Nat)
    (hab : goesFirst val key a b = true)
    (hbc : goesFirst val key b c = true) : goesFirst val key a c = true := by
  cases key with
  | priority =>
    simp only [goesFirst, decide_eq_true_eq] at *
    omega
  | due_date =>
    simp only [goesFirst, strLe] at *
    exact strLeB_trans _ _ _ hab hbc

/-- Equality of sort keys, per key. -/
@[reducible] def sameKey (val : Nat → Task) (key : SortKey) (i j : Nat) : Prop :=
  match key with
  | .priority => priorityValue (val i).priority = priorityValue (val j).priority
  | .due_date => dueValue (val i).due_date = dueValue (val j).due_date

theorem goesFirst_of_sameKey (val : Nat → Task) (key : SortKey) (i j : Nat)
    (hk : sameKey val key i j) : goesFirst val key i j = true := by
  cases key with
  | priority =>
    simp only [sameKey] at hk
    simp [goesFirst, hk]
  | due_date =>
    simp only [sameKey] at hk
    simp [goesFirst, strLe, hk, strLeB_refl]

theorem goesFirst_pri_P2 (val : Nat → Task) (a b x : Nat)
    (hab : goesFirst val SortKey.priority a b = false)
    (hx : priorityValue (val x).priority = priorityValue (val b).priority) :
    goesFirst val SortKey.priority a x = false := by
  simp only [goesFirst, decide_eq_false_iff_not] at *
  omega

/-! ### The public operations of claim C2 -/

/-- The public container operations listed by the claim. -/
inductive ContainerOp
  | append (newId : Nat)
  | remove (node : Nat)
  | filterByStatus (status : String)
  | sweep
  | sortBy (key : SortKey)

/-- One public operation applied to the container state.
`filterByStatus` (`get_tasks_by_status`) only reads, so its state
transition is the identity. -/
def applyOp (val : Nat → Task) (dummy fuel : Nat) (h : Heap)
    (st : TaskList) : ContainerOp → Heap × TaskList
  | .append newId => add_task_node h st fuel newId
  | .remove node => delete_task_node h st node
  | .filterByStatus _ => (h, st)
  | .sweep => sweepRemoved val fuel h st
  | .sortBy key => sort_by val key dummy fuel h st

/-- Side conditions of the claim: an appended node is fresh (a newly
constructed `TaskNode`, whose pointers are null), a removed node is
currently in the container, and the merge dummy is no container node. -/
def opOk (h : Heap) (ids : List Nat) (dummy : Nat) : ContainerOp → Prop
  | .append newId => newId ∉ ids ∧ h.nxt newId = none ∧ h.prv newId = none
  | .remove node => node ∈ ids
  | .filterByStatus _ => True
  | .sweep => True
  | .sortBy _ => dummy ∉ ids

theorem isSeg_head_eq (h : Heap) (r : Option Nat) (ids : List Nat)
    (hseg : isSeg h r ids = true) : r = ids.head? := by
  cases ids with
  | nil => simpa using (isSeg_nil_iff h r).1 hseg
  | cons a l => simpa using ((isSeg_cons_iff h r a l).1 hseg).1

/-- C2: every public container operation — append of a fresh or
reconstructed node, remove of a node currently in the container,
filter-by-status, the tombstone sweep, and `sort_by` on either key —
preserves the structural invariant: the nodes reachable from `head` form a
duplicate-free, symmetrically linked segment with null `head.prev` and
tail `next` (so forward traversal terminates without revisiting a node),
and `count` equals the number of reachable nodes. -/
theorem C2_public_ops_preserve_invariant (val : Nat → Task)
    (dummy fuel : Nat) (h : Heap) (st : TaskList) (ids : List Nat)
    (op : ContainerOp) (hinv : inv h st ids) (hok : opOk h ids dummy op)
    (hfuel : ids.length ≤ fuel) :
    ∃ ids' : List Nat,
      inv (applyOp val dummy fuel h st op).1
        (applyOp val dummy fuel h st op).2 ids' := by
  obtain ⟨hseg, hnd, hcnt⟩ := hinv
  cases op with
  | append newId =>
    obtain ⟨h1, h2, h3⟩ := hok
    exact ⟨ids ++ [newId],
      add_task_node_spec h st fuel newId ids ⟨hseg, hnd, hcnt⟩ h1 h2 h3 hfuel⟩
  | remove node =>
    obtain ⟨u, v, huv⟩ := List.append_of_mem hok
    subst huv
    obtain ⟨g1, g2⟩ := delete_task_node_spec h st node u v hseg hnd
    simp only [applyOp]
    refine ⟨u ++ v, g1,
      hnd.sublist ((List.sublist_cons_self node v).append_left u), ?_⟩
    rw [g2, hcnt]
    simp only [List.length_append, List.length_cons]
    push_cast
    ring
  | filterByStatus s => exact ⟨ids, hseg, hnd, hcnt⟩
  | sweep =>
    have hhead : st.head = ids.head? := isSeg_head_eq h st.head ids hseg
    obtain ⟨g1, g2, -⟩ := sweepLoop_spec val ids [] h st fuel
      (by simpa using hseg) (by simpa using hnd) (by simpa using hcnt) hfuel
    refine ⟨ids.filter (fun i => !decide ((val i).status = "deleted")),
      ?_, hnd.filter _, ?_⟩
    · show isSeg (sweepLoop val fuel h st st.head).1
        (sweepLoop val fuel h st st.head).2.head _ = true
      rw [hhead]
      simpa using g1
    · show (sweepLoop val fuel h st st.head).2.count = _
      rw [hhead]
      simpa using g2
  | sortBy key =>
    obtain ⟨g1, g2, g3, -⟩ := sort_by_spec val key dummy fuel h st ids
      ⟨hseg, hnd, hcnt⟩ hok hfuel
    exact ⟨mergeSortL (goesFirst val key) fuel ids, g1, g2, g3⟩

/-- Witness for C2: removing the middle node of a concrete three-node
container. -/
theorem C2_witness :
    (inv { nxt := fun i => if i = 0 then some 1 else if i = 1 then some 2 else none,
           prv := fun i => if i = 1 then some 0 else if i = 2 then some 1 else none }
         { head := some 0, count := 3 } [0, 1, 2] ∧
       opOk { nxt := fun i => if i = 0 then some 1 else if i = 1 then some 2 else none,
              prv := fun i => if i = 1 then some 0 else if i = 2 then some 1 else none }
         [0, 1, 2] 99 (ContainerOp.remove 1) ∧
       ([0, 1, 2] : List Nat).length ≤ 3) ∧
    ∃ ids' : List Nat,
      inv (applyOp (fun _ => mkTaskNode "t" "low" none "todo" none) 99 3
            { nxt := fun i => if i = 0 then some 1 else if i = 1 then some 2 else none,
              prv := fun i => if i = 1 then some 0 else if i = 2 then some 1 else none }
            { head := some 0, count := 3 } (ContainerOp.remove 1)).1
          (applyOp (fun _ => mkTaskNode "t" "low" none "todo" none) 99 3
            { nxt := fun i => if i = 0 then some 1 else if i = 1 then some 2 else none,
              prv := fun i => if i = 1 then some 0 else if i = 2 then some 1 else none }
            { head := some 0, count := 3 } (ContainerOp.remove 1)).2 ids' :=
  ⟨⟨⟨by decide, by decide, by decide⟩,
      by show (1 : Nat) ∈ [0, 1, 2]; decide, by decide⟩,
    C2_public_ops_preserve_invariant
      (fun _ => mkTaskNode "t" "low" none "todo" none) 99 3
      { nxt := fun i => if i = 0 then some 1 else if i = 1 then some 2 else none,
        prv := fun i => if i = 1 then some 0 else if i = 2 then some 1 else none }
      { head := some 0, count := 3 } [0, 1, 2] (ContainerOp.remove 1)
      ⟨by decide, by decide, by decide⟩
      (by show (1 : Nat) ∈ [0, 1, 2]; decide) (by decide)⟩

/-- C6 fails as stated: `delete_task_node` on a detached node that does not
belong to the container leaves the heap and the head untouched but still
runs `self.count -= 1`, so `count` changes. -/
theorem C6_remove_foreign_counterexample :
    inv { nxt := fun _ => none, prv := fun _ => none }
        { head := some 0, count := 1 } [0] ∧
    (1 : Nat) ∉ [0] ∧
    (delete_task_node { nxt := fun _ => none, prv := fun _ => none }
        { head := some 0, count := 1 } 1).2.count ≠ 1 := by
  exact ⟨⟨by decide, by decide, by decide⟩, by decide, by decide⟩

/-- C6, amended: removing a detached node reference that does not belong to
the container leaves the heap (hence the node sequence and all links) and
the head unchanged, but still decrements `count` by one — so `count` no
longer equals the number of live nodes. -/
theorem C6_remove_foreign_amended (h : Heap) (st : TaskList) (node : Nat)
    (ids : List Nat) (hinv : inv h st ids) (hnm : node ∉ ids)
    (hn0 : h.nxt node = none) (hp0 : h.prv node = none) :
    (delete_task_node h st node).1 = h ∧
    (delete_task_node h st node).2.head = st.head ∧
    (delete_task_node h st node).2.count = st.count - 1 ∧
    isSeg (delete_task_node h st node).1 (delete_task_node h st node).2.head
      ids = true := by
  obtain ⟨hseg, hnd, hcnt⟩ := hinv
  have hhead : st.head = ids.head? := isSeg_head_eq h st.head ids hseg
  have hcond : (st.head == some node) = false := by
    rw [hhead]
    cases ids with
    | nil => rfl
    | cons a l =>
      have : a ≠ node := fun hc => hnm (by simp [hc])
      simp [this]
  have hres : delete_task_node h st node =
      (h, { st with count := st.count - 1 }) := by
    simp only [delete_task_node, hcond, Bool.false_eq_true, if_false, hp0,
      hn0]
  rw [hres]
  exact ⟨rfl, rfl, rfl, hseg⟩

/-- Witness for the amended C6. -/
theorem C6_witness :
    (inv { nxt := fun _ => none, prv := fun _ => none }
        { head := some 0, count := 1 } [0] ∧
      (1 : Nat) ∉ [0]) ∧
    (delete_task_node { nxt := fun _ => none, prv := fun _ => none }
        { head := some 0, count := 1 } 1).1 =
      { nxt := fun _ => none, prv := fun _ => none } ∧
    (delete_task_node { nxt := fun _ => none, prv := fun _ => none }
        { head := some 0, count := 1 } 1).2.head = some 0 ∧
    (delete_task_node { nxt := fun _ => none, prv := fun _ => none }
        { head := some 0, count := 1 } 1).2.count = 1 - 1 ∧
    isSeg (delete_task_node { nxt := fun _ => none, prv := fun _ => none }
        { head := some 0, count := 1 } 1).1
      (delete_task_node { nxt := fun _ => none, prv := fun _ => none }
        { head := some 0, count := 1 } 1).2.head [0] = true :=
  ⟨⟨⟨by decide, by decide, by decide⟩, by decide⟩,
    C6_remove_foreign_amended { nxt := fun _ => none, prv := fun _ => none }
      { head := some 0, count := 1 } 1 [0]
      ⟨by decide, by decide, by decide⟩ (by decide) rfl rfl⟩

/-- C5: on a valid container with an arbitrary subset of nodes tombstoned
(`status == "deleted"`), the sweep of `App.refresh_ui` — one forward pass
capturing `next_node` before unlinking — removes exactly the tombstoned
nodes, keeps the others in their original relative order, updates `count`
accordingly, and is a strict no-op (heap and state unchanged) when no node
is tombstoned.  Exactness of the filter covers the
consecutive-tombstones case: no node is skipped or processed twice. -/
theorem C5_sweep_removes_exactly_tombstoned (val : Nat → Task) (fuel : Nat)
    (h : Heap) (st : TaskList) (ids : List Nat) (hinv : inv h st ids)
    (hfuel : ids.length ≤ fuel) :
    isSeg (sweepRemoved val fuel h st).1 (sweepRemoved val fuel h st).2.head
        (ids.filter (fun i => !decide ((val i).status = "deleted"))) = true ∧
    (sweepRemoved val fuel h st).2.count =
      ((ids.filter (fun i => !decide ((val i).status = "deleted"))).length
        : Int) ∧
    ((∀ i ∈ ids, (val i).status ≠ "deleted") →
      sweepRemoved val fuel h st = (h, st)) := by
  obtain ⟨hseg, hnd, hcnt⟩ := hinv
  have hhead : st.head = ids.head? := isSeg_head_eq h st.head ids hseg
  obtain ⟨g1, g2, g3⟩ := sweepLoop_spec val ids [] h st fuel
    (by simpa using hseg) (by simpa using hnd) (by simpa using hcnt) hfuel
  refine ⟨?_, ?_, ?_⟩
  · show isSeg (sweepLoop val fuel h st st.head).1
      (sweepLoop val fuel h st st.head).2.head _ = true
    rw [hhead]
    simpa using g1
  · show (sweepLoop val fuel h st st.head).2.count = _
    rw [hhead]
    simpa using g2
  · intro hall
    show sweepLoop val fuel h st st.head = (h, st)
    rw [hhead]
    exact g3 hall

/-- Witness for C5: a four-node container whose two middle nodes (adjacent)
are tombstoned. -/
theorem C5_witness :
    (inv { nxt := fun i => if i = 0 then some 1 else if i = 1 then some 2
             else if i = 2 then some 3 else none,
           prv := fun i => if i = 1 then some 0 else if i = 2 then some 1
             else if i = 3 then some 2 else none }
         { head := some 0, count := 4 } [0, 1, 2, 3] ∧
      ([0, 1, 2, 3] : List Nat).length ≤ 4) ∧
    isSeg (sweepRemoved
        (fun i => if i = 1 ∨ i = 2
          then mkTaskNode "t" "low" none "deleted" none
          else mkTaskNode "t" "low" none "todo" none) 4
        { nxt := fun i => if i = 0 then some 1 else if i = 1 then some 2
            else if i = 2 then some 3 else none,
          prv := fun i => if i = 1 then some 0 else if i = 2 then some 1
            else if i = 3 then some 2 else none }
        { head := some 0, count := 4 }).1
      (sweepRemoved
        (fun i => if i = 1 ∨ i = 2
          then mkTaskNode "t" "low" none "deleted" none
          else mkTaskNode "t" "low" none "todo" none) 4
        { nxt := fun i => if i = 0 then some 1 else if i = 1 then some 2
            else if i = 2 then some 3 else none,
          prv := fun i => if i = 1 then some 0 else if i = 2 then some 1
            else if i = 3 then some 2 else none }
        { head := some 0, count := 4 }).2.head
      (([0, 1, 2, 3] : List Nat).filter
        (fun i => !decide ((if i = 1 ∨ i = 2
          then mkTaskNode "t" "low" none "deleted" none
          else mkTaskNode "t" "low" none "todo" none).status = "deleted")))
      = true :=
  ⟨⟨⟨by decide, by decide, by decide⟩, by decide⟩,
    (C5_sweep_removes_exactly_tombstoned
      (fun i => if i = 1 ∨ i = 2
        then mkTaskNode "t" "low" none "deleted" none
        else mkTaskNode "t" "low" none "todo" none) 4
      { nxt := fun i => if i = 0 then some 1 else if i = 1 then some 2
          else if i = 2 then some 3 else none,
        prv := fun i => if i = 1 then some 0 else if i = 2 then some 1
          else if i = 3 then some 2 else none }
      { head := some 0, count := 4 } [0, 1, 2, 3]
      ⟨by decide, by decide, by decide⟩ (by decide)).1⟩

/-- C9: `_split` on a non-empty detached segment of `n` nodes returns a
left half of `⌈n/2⌉ = (n+1)/2` nodes and a right half of `⌊n/2⌋` nodes
(odd lengths give the left half the extra node), both fully detached: the
left half's last node gets a null `next` and the right half's head (when
present) a null `prev`; the two halves are the take/drop of the original
sequence. -/
theorem C9_split_halves (h : Heap) (hd : Nat) (rest : List Nat) (fuel : Nat)
    (hseg : isSeg h (some hd) (hd :: rest) = true)
    (hnd : (hd :: rest).Nodup)
    (hfuel : rest.length ≤ fuel) :
    (splitPtr h fuel hd).2.1 = hd ∧
    isSeg (splitPtr h fuel hd).1 (some hd)
        ((hd :: rest).take (((hd :: rest).length + 1) / 2)) = true ∧
    isSeg (splitPtr h fuel hd).1 (splitPtr h fuel hd).2.2
        ((hd :: rest).drop (((hd :: rest).length + 1) / 2)) = true ∧
    ((hd :: rest).take (((hd :: rest).length + 1) / 2)).length =
      ((hd :: rest).length + 1) / 2 ∧
    ((hd :: rest).drop (((hd :: rest).length + 1) / 2)).length =
      (hd :: rest).length / 2 ∧
    (splitPtr h fuel hd).1.nxt (lastD hd (rest.take (rest.length / 2)))
      = none ∧
    (∀ w, (splitPtr h fuel hd).2.2 = some w →
      (splitPtr h fuel hd).1.prv w = none) := by
  obtain ⟨g1, g2, g3, -, -⟩ := splitPtr_spec h hd rest fuel hseg hnd hfuel
  have hk : ((hd :: rest).length + 1) / 2 = rest.length / 2 + 1 := by
    simp only [List.length_cons]
    omega
  rw [hk]
  have htk : ((hd :: rest).take (rest.length / 2 + 1)).length =
      rest.length / 2 + 1 := by
    simp only [List.length_take, List.length_cons]
    omega
  have hdk : ((hd :: rest).drop (rest.length / 2 + 1)).length =
      (hd :: rest).length / 2 := by
    simp only [List.length_drop, List.length_cons]
    omega
  refine ⟨g1, g2, g3, htk, hdk, ?_, ?_⟩
  · have htake : (hd :: rest).take (rest.length / 2 + 1) =
        hd :: rest.take (rest.length / 2) := by simp
    rw [htake] at g2
    obtain ⟨-, -, -, hlast⟩ :=
      (isSeg_cons_iff _ (some hd) hd (rest.take (rest.length / 2))).1 g2
    exact hlast
  · intro w hw
    rw [hw] at g3
    cases hdrop : (hd :: rest).drop (rest.length / 2 + 1) with
    | nil =>
      rw [hdrop] at g3
      exact absurd ((isSeg_nil_iff _ _).1 g3) (by simp)
    | cons w' v' =>
      rw [hdrop] at g3
      obtain ⟨hww, hpw, -, -⟩ := (isSeg_cons_iff _ (some w) w' v').1 g3
      injection hww with hww
      subst hww
      exact hpw

/-- Witness for C9: splitting a concrete five-node segment (odd length, the
left half gets three nodes). -/
theorem C9_witness :
    (isSeg { nxt := fun i => if i < 4 then some (i + 1) else none,
             prv := fun i => if 0 < i ∧ i ≤ 4 then some (i - 1) else none }
        (some 0) [0, 1, 2, 3, 4] = true ∧
      ([1, 2, 3, 4] : List Nat).length ≤ 4 ∧
      ([0, 1, 2, 3, 4] : List Nat).Nodup) ∧
    isSeg (splitPtr { nxt := fun i => if i < 4 then some (i + 1) else none,
                      prv := fun i => if 0 < i ∧ i ≤ 4 then some (i - 1)
                             else none } 4 0).1
      (some 0)
      (([0, 1, 2, 3, 4] : List Nat).take
        ((([0, 1, 2, 3, 4] : List Nat).length + 1) / 2)) = true :=
  ⟨⟨by decide, by decide, by decide⟩,
    (C9_split_halves { nxt := fun i => if i < 4 then some (i + 1) else none,
                       prv := fun i => if 0 < i ∧ i ≤ 4 then some (i - 1)
                              else none }
      0 [1, 2, 3, 4] 4 (by decide) (by decide) (by decide)).2.1⟩

/-- C1: after `sort_by` with the priority key on a valid container, the
node sequence becomes `mergeSortL` of the old one (laid out as the segment
from the new head) and every adjacent pair `(a, b)` in head-to-tail order
satisfies `priorityValue a ≥ priorityValue b`: the order is descending,
high (3) first, then medium (2), low (1) and unrecognized strings (0). -/
theorem C1_priority_sort_descending (val : Nat → Task) (dummy fuel : Nat)
    (h : Heap) (st : TaskList) (ids : List Nat)
    (hinv : inv h st ids) (hdm : dummy ∉ ids) (hfuel : ids.length ≤ fuel) :
    isSeg (sort_by val SortKey.priority dummy fuel h st).1
        (sort_by val SortKey.priority dummy fuel h st).2.head
        (mergeSortL (goesFirst val SortKey.priority) fuel ids) = true ∧
    List.Chain'
      (fun a b => priorityValue (val b).priority ≤ priorityValue (val a).priority)
      (mergeSortL (goesFirst val SortKey.priority) fuel ids) := by
  obtain ⟨g1, -, -, -⟩ :=
    sort_by_spec val SortKey.priority dummy fuel h st ids hinv hdm hfuel
  have hpw := mergeSortL_pairwise (goesFirst val SortKey.priority)
    (goesFirst_total val SortKey.priority)
    (goesFirst_trans val SortKey.priority) fuel ids hfuel
  refine ⟨g1, List.Pairwise.chain' ?_⟩
  refine hpw.imp ?_
  intro a b hab
  simpa [goesFirst] using hab

/-- Witness for C1: sorting a concrete three-node container holding the
priorities low, high, medium. -/
theorem C1_witness :
    (inv { nxt := fun i => if i = 0 then some 1 else if i = 1 then some 2
             else none,
           prv := fun i => if i = 1 then some 0 else if i = 2 then some 1
             else none }
         { head := some 0, count := 3 } [0, 1, 2] ∧
      99 ∉ ([0, 1, 2] : List Nat) ∧ ([0, 1, 2] : List Nat).length ≤ 3) ∧
    isSeg (sort_by
          (fun i => if i = 0 then mkTaskNode "a" "low" none "todo" none
            else if i = 1 then mkTaskNode "b" "high" none "todo" none
            else mkTaskNode "c" "medium" none "todo" none)
          SortKey.priority 99 3
          { nxt := fun i => if i = 0 then some 1 else if i = 1 then some 2
              else none,
            prv := fun i => if i = 1 then some 0 else if i = 2 then some 1
              else none }
          { head := some 0, count := 3 }).1
        (sort_by
          (fun i => if i = 0 then mkTaskNode "a" "low" none "todo" none
            else if i = 1 then mkTaskNode "b" "high" none "todo" none
            else mkTaskNode "c" "medium" none "todo" none)
          SortKey.priority 99 3
          { nxt := fun i => if i = 0 then some 1 else if i = 1 then some 2
              else none,
            prv := fun i => if i = 1 then some 0 else if i = 2 then some 1
              else none }
          { head := some 0, count := 3 }).2.head
        (mergeSortL (goesFirst
          (fun i => if i = 0 then mkTaskNode "a" "low" none "todo" none
            else if i = 1 then mkTaskNode "b" "high" none "todo" none
            else mkTaskNode "c" "medium" none "todo" none)
          SortKey.priority) 3 [0, 1, 2]) = true :=
  ⟨⟨⟨by decide, by decide, by decide⟩, by decide, by decide⟩,
    (C1_priority_sort_descending
      (fun i => if i = 0 then mkTaskNode "a" "low" none "todo" none
        else if i = 1 then mkTaskNode "b" "high" none "todo" none
        else mkTaskNode "c" "medium" none "todo" none)
      99 3
      { nxt := fun i => if i = 0 then some 1 else if i = 1 then some 2
          else none,
        prv := fun i => if i = 1 then some 0 else if i = 2 then some 1
          else none }
      { head := some 0, count := 3 } [0, 1, 2]
      ⟨by decide, by decide, by decide⟩ (by decide) (by decide)).1⟩

/-- C3: sorting is stable and idempotent.  When all nodes of the container
have equal sort keys, `sort_by` lays out the original node sequence `ids`
unchanged; and running `sort_by` a second time with the same key produces
the same node sequence as the first run (the first run's output
`mergeSortL … ids` again). -/
theorem C3_sort_stable_idempotent (val : Nat → Task) (key : SortKey)
    (dummy fuel : Nat) (h : Heap) (st : TaskList) (ids : List Nat)
    (hinv : inv h st ids) (hdm : dummy ∉ ids) (hfuel : ids.length ≤ fuel) :
    ((∀ i ∈ ids, ∀ j ∈ ids, sameKey val key i j) →
      isSeg (sort_by val key dummy fuel h st).1
        (sort_by val key dummy fuel h st).2.head ids = true) ∧
    isSeg
        (sort_by val key dummy fuel (sort_by val key dummy fuel h st).1
          (sort_by val key dummy fuel h st).2).1
        (sort_by val key dummy fuel (sort_by val key dummy fuel h st).1
          (sort_by val key dummy fuel h st).2).2.head
        (mergeSortL (goesFirst val key) fuel ids) = true := by
  obtain ⟨g1, g2, g3, g4⟩ :=
    sort_by_spec val key dummy fuel h st ids hinv hdm hfuel
  constructor
  · intro hall
    have hpair : ids.Pairwise (fun a b => goesFirst val key a b = true) :=
      List.pairwise_of_forall_mem_list
        (fun a ha b hb => goesFirst_of_sameKey val key a b (hall a ha b hb))
    have hid : mergeSortL (goesFirst val key) fuel ids = ids :=
      mergeSortL_sorted_id (goesFirst val key) fuel ids hpair
    rw [hid] at g1
    exact g1
  · have hinv1 : inv (sort_by val key dummy fuel h st).1
        (sort_by val key dummy fuel h st).2
        (mergeSortL (goesFirst val key) fuel ids) := ⟨g1, g2, g3⟩
    have hperm := mergeSortL_perm (goesFirst val key) fuel ids hfuel
    have hdm1 : dummy ∉ mergeSortL (goesFirst val key) fuel ids :=
      fun hc => hdm (hperm.mem_iff.1 hc)
    have hfuel1 : (mergeSortL (goesFirst val key) fuel ids).length ≤ fuel := by
      rw [g4]; exact hfuel
    obtain ⟨q1, -, -, -⟩ := sort_by_spec val key dummy fuel
      (sort_by val key dummy fuel h st).1 (sort_by val key dummy fuel h st).2
      (mergeSortL (goesFirst val key) fuel ids) hinv1 hdm1 hfuel1
    have hsorted := mergeSortL_pairwise (goesFirst val key)
      (goesFirst_total val key) (goesFirst_trans val key) fuel ids hfuel
    have hid2 : mergeSortL (goesFirst val key) fuel
        (mergeSortL (goesFirst val key) fuel ids) =
        mergeSortL (goesFirst val key) fuel ids :=
      mergeSortL_sorted_id (goesFirst val key) fuel _ hsorted
    rw [hid2] at q1
    exact q1

/-- Witness for C3: a concrete two-node container whose nodes share one
priority; the sort leaves the order `[0, 1]` unchanged. -/
theorem C3_witness :
    (inv { nxt := fun i => if i = 0 then some 1 else none,
           prv := fun i => if i = 1 then some 0 else none }
         { head := some 0, count := 2 } [0, 1] ∧
      99 ∉ ([0, 1] : List Nat) ∧ ([0, 1] : List Nat).length ≤ 2 ∧
      (∀ i ∈ ([0, 1] : List Nat), ∀ j ∈ ([0, 1] : List Nat),
        sameKey (fun _ => mkTaskNode "t" "low" none "todo" none)
          SortKey.priority i j)) ∧
    isSeg (sort_by (fun _ => mkTaskNode "t" "low" none "todo" none)
          SortKey.priority 99 2
          { nxt := fun i => if i = 0 then some 1 else none,
            prv := fun i => if i = 1 then some 0 else none }
          { head := some 0, count := 2 }).1
        (sort_by (fun _ => mkTaskNode "t" "low" none "todo" none)
          SortKey.priority 99 2
          { nxt := fun i => if i = 0 then some 1 else none,
            prv := fun i => if i = 1 then some 0 else none }
          { head := some 0, count := 2 }).2.head [0, 1] = true :=
  ⟨⟨⟨by decide, by decide, by decide⟩, by decide, by decide, by decide⟩,
    (C3_sort_stable_idempotent
      (fun _ => mkTaskNode "t" "low" none "todo" none)
      SortKey.priority 99 2
      { nxt := fun i => if i = 0 then some 1 else none,
        prv := fun i => if i = 1 then some 0 else none }
      { head := some 0, count := 2 } [0, 1]
      ⟨by decide, by decide, by decide⟩ (by decide) (by decide)).1
      (by decide)⟩

/-- The claim's clause "every undated task appears after all dated tasks",
stated over a head-to-tail task sequence: after any undated task, every
later task is also undated. -/
def undatedLast : List Task → Bool
  | [] => true
  | t :: rest =>
    (if t.due_date = none then rest.all (fun u => decide (u.due_date = none))
     else true) && undatedLast rest

/-- C4 counterexample: sorting by due date a two-node container whose
first node is undated and whose second carries the literal date
`"9999-12-31"` keeps the undated node first.  Both nodes map to the same
sentinel key `"9999-12-31"`, the merge keeps the left operand on ties, so
the resulting order is still `[0, 1]` and the undated task does not appear
after the dated task. -/
theorem C4_due_sort_counterexample :
    isSeg (sort_by
          (fun i => if i = 0 then mkTaskNode "u" "low" none "todo" none
            else mkTaskNode "d" "low" (some "9999-12-31") "todo" none)
          SortKey.due_date 99 2
          { nxt := fun i => if i = 0 then some 1 else none,
            prv := fun i => if i = 1 then some 0 else none }
          { head := some 0, count := 2 }).1
        (sort_by
          (fun i => if i = 0 then mkTaskNode "u" "low" none "todo" none
            else mkTaskNode "d" "low" (some "9999-12-31") "todo" none)
          SortKey.due_date 99 2
          { nxt := fun i => if i = 0 then some 1 else none,
            prv := fun i => if i = 1 then some 0 else none }
          { head := some 0, count := 2 }).2.head [0, 1] = true ∧
    ((fun i => if i = 0 then mkTaskNode "u" "low" none "todo" none
        else mkTaskNode "d" "low" (some "9999-12-31") "todo" none)
       (0 : Nat)).due_date = none ∧
    ((fun i => if i = 0 then mkTaskNode "u" "low" none "todo" none
        else mkTaskNode "d" "low" (some "9999-12-31") "todo" none)
       (1 : Nat)).due_date = some "9999-12-31" ∧
    undatedLast (([0, 1] : List Nat).map
      (fun i => if i = 0 then mkTaskNode "u" "low" none "todo" none
        else mkTaskNode "d" "low" (some "9999-12-31") "todo" none)) = false := by
  refine ⟨by decide, rfl, rfl, by decide⟩

/-- C4 (amended): after `sort_by` with the due-date key the node sequence
is `mergeSortL` of the old one; adjacent pairs are nondecreasing under
`dueValue` (an absent or empty due date maps to the sentinel
`"9999-12-31"`, lexical string order, ascending: earlier date first); and
any task following an undated task has key `≥ "9999-12-31"`.  Undated
tasks therefore sort after every task dated strictly before the sentinel,
but a task whose literal date is `≥ "9999-12-31"` may still follow an
undated one, so the claim's unconditional "undated tasks appear after all
dated tasks" fails (see the counterexample). -/
theorem C4_due_sort_amended (val : Nat → Task) (dummy fuel : Nat)
    (h : Heap) (st : TaskList) (ids : List Nat)
    (hinv : inv h st ids) (hdm : dummy ∉ ids) (hfuel : ids.length ≤ fuel) :
    isSeg (sort_by val SortKey.due_date dummy fuel h st).1
        (sort_by val SortKey.due_date dummy fuel h st).2.head
        (mergeSortL (goesFirst val SortKey.due_date) fuel ids) = true ∧
    List.Chain'
      (fun a b => strLe (dueValue (val a).due_date) (dueValue (val b).due_date) = true)
      (mergeSortL (goesFirst val SortKey.due_date) fuel ids) ∧
    (mergeSortL (goesFirst val SortKey.due_date) fuel ids).Pairwise
      (fun a b => (val a).due_date = none →
        strLe "9999-12-31" (dueValue (val b).due_date) = true) := by
  obtain ⟨g1, -, -, -⟩ :=
    sort_by_spec val SortKey.due_date dummy fuel h st ids hinv hdm hfuel
  have hpw := mergeSortL_pairwise (goesFirst val SortKey.due_date)
    (goesFirst_total val SortKey.due_date)
    (goesFirst_trans val SortKey.due_date) fuel ids hfuel
  have hchain : List.Chain'
      (fun a b => strLe (dueValue (val a).due_date) (dueValue (val b).due_date) = true)
      (mergeSortL (goesFirst val SortKey.due_date) fuel ids) := by
    refine List.Pairwise.chain' ?_
    refine hpw.imp ?_
    intro a b hab
    simpa [goesFirst] using hab
  have hpair : (mergeSortL (goesFirst val SortKey.due_date) fuel ids).Pairwise
      (fun a b => (val a).due_date = none →
        strLe "9999-12-31" (dueValue (val b).due_date) = true) := by
    refine hpw.imp ?_
    intro a b hab hnone
    have hle : strLe (dueValue (val a).due_date)
        (dueValue (val b).due_date) = true := by
      simpa [goesFirst] using hab
    rw [hnone] at hle
    exact hle
  exact ⟨g1, hchain, hpair⟩

/-- Witness for C4 (amended): two concrete dated nodes, out of order on
input, sorted ascending. -/
theorem C4_witness :
    (inv { nxt := fun i => if i = 0 then some 1 else none,
           prv := fun i => if i = 1 then some 0 else none }
         { head := some 0, count := 2 } [0, 1] ∧
      99 ∉ ([0, 1] : List Nat) ∧ ([0, 1] : List Nat).length ≤ 2) ∧
    isSeg (sort_by
          (fun i => if i = 0 then mkTaskNode "b" "low" (some "2025-06-01") "todo" none
            else mkTaskNode "a" "low" (some "2024-01-15") "todo" none)
          SortKey.due_date 99 2
          { nxt := fun i => if i = 0 then some 1 else none,
            prv := fun i => if i = 1 then some 0 else none }
          { head := some 0, count := 2 }).1
        (sort_by
          (fun i => if i = 0 then mkTaskNode "b" "low" (some "2025-06-01") "todo" none
            else mkTaskNode "a" "low" (some "2024-01-15") "todo" none)
          SortKey.due_date 99 2
          { nxt := fun i => if i = 0 then some 1 else none,
            prv := fun i => if i = 1 then some 0 else none }
          { head := some 0, count := 2 }).2.head
        (mergeSortL (goesFirst
          (fun i => if i = 0 then mkTaskNode "b" "low" (some "2025-06-01") "todo" none
            else mkTaskNode "a" "low" (some "2024-01-15") "todo" none)
          SortKey.due_date) 2 [0, 1]) = true :=
  ⟨⟨⟨by decide, by decide, by decide⟩, by decide, by decide⟩,
    (C4_due_sort_amended
      (fun i => if i = 0 then mkTaskNode "b" "low" (some "2025-06-01") "todo" none
        else mkTaskNode "a" "low" (some "2024-01-15") "todo" none)
      99 2
      { nxt := fun i => if i = 0 then some 1 else none,
        prv := fun i => if i = 1 then some 0 else none }
      { head := some 0, count := 2 } [0, 1]
      ⟨by decide, by decide, by decide⟩ (by decide) (by decide)).1⟩

/-- C10: the priority comparison is total over arbitrary priority strings:
any priority other than "high"/"medium"/"low" gets comparison key value 0;
after `sort_by` with the priority key the node sequence is `mergeSortL` of
the old one, in it every node following a key-0 node also has key 0 (so
key-0 tasks sit after all tasks with a recognized priority), and the key-0
nodes keep their relative input order (stability). -/
theorem C10_unrecognized_priority (val : Nat → Task) (dummy fuel : Nat)
    (h : Heap) (st : TaskList) (ids : List Nat)
    (hinv : inv h st ids) (hdm : dummy ∉ ids) (hfuel : ids.length ≤ fuel) :
    (∀ p : String, p ≠ "high" → p ≠ "medium" → p ≠ "low" →
      priorityValue p = 0) ∧
    isSeg (sort_by val SortKey.priority dummy fuel h st).1
        (sort_by val SortKey.priority dummy fuel h st).2.head
        (mergeSortL (goesFirst val SortKey.priority) fuel ids) = true ∧
    (mergeSortL (goesFirst val SortKey.priority) fuel ids).Pairwise
      (fun a b => priorityValue (val a).priority = 0 →
        priorityValue (val b).priority = 0) ∧
    (mergeSortL (goesFirst val SortKey.priority) fuel ids).filter
        (fun i => decide (priorityValue (val i).priority = 0)) =
      ids.filter (fun i => decide (priorityValue (val i).priority = 0)) := by
  obtain ⟨g1, -, -, -⟩ :=
    sort_by_spec val SortKey.priority dummy fuel h st ids hinv hdm hfuel
  have hpw := mergeSortL_pairwise (goesFirst val SortKey.priority)
    (goesFirst_total val SortKey.priority)
    (goesFirst_trans val SortKey.priority) fuel ids hfuel
  refine ⟨?_, g1, ?_, ?_⟩
  · intro p h1 h2 h3
    simp [priorityValue, h1, h2, h3]
  · refine hpw.imp ?_
    intro a b hab ha0
    have hba : priorityValue (val b).priority ≤
        priorityValue (val a).priority := by
      simpa [goesFirst] using hab
    omega
  · exact mergeSortL_filter (goesFirst val SortKey.priority)
      (fun i => priorityValue (val i).priority)
      (goesFirst_total val SortKey.priority)
      (goesFirst_trans val SortKey.priority)
      (fun a b hk => by simp [goesFirst, hk])
      (goesFirst_pri_P2 val) 0 fuel ids hfuel

/-- Witness for C10: a concrete three-node container whose middle node has
the unrecognized priority "urgent". -/
theorem C10_witness :
    (inv { nxt := fun i => if i = 0 then some 1 else if i = 1 then some 2
             else none,
           prv := fun i => if i = 1 then some 0 else if i = 2 then some 1
             else none }
         { head := some 0, count := 3 } [0, 1, 2] ∧
      99 ∉ ([0, 1, 2] : List Nat) ∧ ([0, 1, 2] : List Nat).length ≤ 3) ∧
    isSeg (sort_by
          (fun i => if i = 0 then mkTaskNode "a" "low" none "todo" none
            else if i = 1 then mkTaskNode "b" "urgent" none "todo" none
            else mkTaskNode "c" "high" none "todo" none)
          SortKey.priority 99 3
          { nxt := fun i => if i = 0 then some 1 else if i = 1 then some 2
              else none,
            prv := fun i => if i = 1 then some 0 else if i = 2 then some 1
              else none }
          { head := some 0, count := 3 }).1
        (sort_by
          (fun i => if i = 0 then mkTaskNode "a" "low" none "todo" none
            else if i = 1 then mkTaskNode "b" "urgent" none "todo" none
            else mkTaskNode "c" "high" none "todo" none)
          SortKey.priority 99 3
          { nxt := fun i => if i = 0 then some 1 else if i = 1 then some 2
              else none,
            prv := fun i => if i = 1 then some 0 else if i = 2 then some 1
              else none }
          { head := some 0, count := 3 }).2.head
        (mergeSortL (goesFirst
          (fun i => if i = 0 then mkTaskNode "a" "low" none "todo" none
            else if i = 1 then mkTaskNode "b" "urgent" none "todo" none
            else mkTaskNode "c" "high" none "todo" none)
          SortKey.priority) 3 [0, 1, 2]) = true :=
  ⟨⟨⟨by decide, by decide, by decide⟩, by decide, by decide⟩,
    (C10_unrecognized_priority
      (fun i => if i = 0 then mkTaskNode "a" "low" none "todo" none
        else if i = 1 then mkTaskNode "b" "urgent" none "todo" none
        else mkTaskNode "c" "high" none "todo" none)
      99 3
      { nxt := fun i => if i = 0 then some 1 else if i = 1 then some 2
          else none,
        prv := fun i => if i = 1 then some 0 else if i = 2 then some 1
          else none }
      { head := some 0, count := 3 } [0, 1, 2]
      ⟨by decide, by decide, by decide⟩ (by decide) (by decide)).2.1⟩

end TodoApp
